import Mathlib

/-!
Verification development for the fiber/stack subsystem of the OCaml runtime
(runtime/fiber.c): stack growth and reallocation, atomic single-owner
continuation capture/resume, and GC root scanning over stacks and the
local-allocation arenas, shallowly embedded in Lean.

Conventions used throughout:
* machine words and addresses are modelled as `Int` (word-granular, not
  byte-granular: all the address arithmetic in fiber.c that matters here is
  in units of `value`);
* a stack segment pointer is abstracted as a `Nat` identifier;
* `Option` models nullable pointers (`none` = `NULL` / `Val_ptr(NULL)`);
* external collaborators (the raw memory provider, the code-fragment table,
  the `Start_env_closinfo` macro) are parameters of the embedded functions.
-/

namespace Fiber

/-! ### Continuations

`caml_continuation_use_noexc` (fiber.c:927-954) performs
  `v = Field(cont, 0)` followed by
  `atomic_compare_exchange_strong(Op_atomic_val(cont), &v, null_stk)`,
returning `v` on CAS success and the null sentinel on CAS failure
(on a lone domain it instead plainly writes the null sentinel and returns
`v`; sequentially both paths have the same effect).
`caml_continuation_replace` (fiber.c:983-989) performs a single CAS from
the null sentinel to the new segment and asserts (debug builds only) that
it succeeded.

The continuation slot is `Option Nat`: `none` is `Val_ptr(NULL)`, and
`some stk` holds the stack-segment pointer `stk`. -/

/-- One compare-and-swap of the continuation slot against `expected`, with
the null sentinel as the desired value: returns the value the C function
returns (`expected` on success, null on failure) and the new slot value. -/
def casTake (slot expected : Option Nat) : Option Nat × Option Nat :=
  if slot = expected then (expected, none) else (none, slot)

/-- Sequential semantics of `caml_continuation_use_noexc`: read the slot,
then CAS it against the value just read.  With no interference the CAS
always succeeds, so the old value is returned and the slot becomes null;
the `caml_domain_alone` fast path (plain read, plain write of null) has the
same sequential effect. -/
def caml_continuation_use_noexc_seq (slot : Option Nat) : Option Nat × Option Nat :=
  casTake slot slot

/-- The `caml_domain_alone` fast path of `caml_continuation_use_noexc`:
plain read of the slot, plain store of the null sentinel. -/
def useNoexcAlone (slot : Option Nat) : Option Nat × Option Nat :=
  (slot, none)

/-- Embeds `caml_continuation_replace` (fiber.c:983-989): one CAS of the slot from
the null sentinel to `some stk`.  Returns the CAS success flag (the value
the debug-build `CAMLassert(b)` checks) and the new slot value. -/
def caml_continuation_replace (slot : Option Nat) (stk : Nat) : Bool × Option Nat :=
  if slot = none then (true, some stk) else (false, slot)

/-- Outcome type of `caml_continuation_use` (fiber.c:956-962): `caml_continuation_use_noexc`
followed by raising `Continuation_already_resumed` when the returned value
is the null sentinel. -/
inductive UseOutcome where
  | ok (stk : Nat)
  | raisedAlreadyResumed
deriving DecidableEq

/-- Sequential semantics of `caml_continuation_use` (fiber.c:956-962). -/
def caml_continuation_use_seq (slot : Option Nat) : UseOutcome × Option Nat :=
  let r := caml_continuation_use_noexc_seq slot
  match r.1 with
  | none => (.raisedAlreadyResumed, r.2)
  | some s => (.ok s, r.2)

/-! #### The concurrent take model (claim C1)

`caml_continuation_use_noexc` on the shared path consists of two atomic
steps: the read `v = Field(cont, 0)` and the CAS.  A set of `n` concurrent
callers is modelled as `n` takers, each advancing through
`initP → readP v → doneP r`; a schedule is an arbitrary list of taker
indices, and a scheduled taker performs its next atomic step (a finished
taker's step is a no-op).  This captures every interleaving of the atomic
accesses of the slot. -/

/-- Local state of one taker running `caml_continuation_use_noexc`. -/
inductive TakerPh where
  | initP
  | readP (v : Option Nat)
  | doneP (r : Option Nat)
deriving DecidableEq

/-- Global state: the continuation slot plus each taker's local state. -/
structure ContSys (n : Nat) where
  slot : Option Nat
  tk : Fin n → TakerPh

/-- One atomic step of taker `i`: an unstarted taker reads the slot; a
taker holding a read value performs the CAS against it and finishes with
the value the C function returns; a finished taker does nothing. -/
def contStep {n : Nat} (s : ContSys n) (i : Fin n) : ContSys n :=
  match s.tk i with
  | .initP => { s with tk := Function.update s.tk i (.readP s.slot) }
  | .readP v =>
      let rc := casTake s.slot v
      { slot := rc.2, tk := Function.update s.tk i (.doneP rc.1) }
  | .doneP _ => s

/-- Run a schedule (a list of taker indices) from a state. -/
def contRun {n : Nat} (s : ContSys n) : List (Fin n) → ContSys n
  | [] => s
  | i :: l => contRun (contStep s i) l

/-- Initial state: the continuation holds the segment `stk`, no taker has
taken a step. -/
def contInit (n stk : Nat) : ContSys n :=
  ⟨some stk, fun _ => .initP⟩

/-- Whether a taker has finished. -/
def isDoneP : TakerPh → Bool
  | .doneP _ => true
  | _ => false

/-- Values a taker can ever read or return: the stored segment or null. -/
def phOk (stk : Nat) : TakerPh → Prop
  | .initP => True
  | .readP v => v = some stk ∨ v = none
  | .doneP r => r = some stk ∨ r = none

/-- Inductive invariant of the concurrent take system started from
`contInit n stk`. -/
def contInv (stk : Nat) {n : Nat} (s : ContSys n) : Prop :=
  (∀ i, phOk stk (s.tk i)) ∧
  (s.slot = some stk ∨ s.slot = none) ∧
  (s.slot = some stk → ∀ i, s.tk i = .initP ∨ s.tk i = .readP (some stk)) ∧
  (s.slot = none → ∃! i, s.tk i = .doneP (some stk))

theorem exu_update {n : Nat} {f : Fin n → TakerPh} {i : Fin n} {a c : TakerPh}
    (hold : f i ≠ c) (hnew : a ≠ c) (h : ∃! j, f j = c) :
    ∃! j, Function.update f i a j = c := by
  obtain ⟨j0, hj0, hu⟩ := h
  have hj0i : j0 ≠ i := fun he => hold (he ▸ hj0)
  refine ⟨j0, ?_, ?_⟩
  · simpa [Function.update_noteq hj0i] using hj0
  · intro y hy
    by_cases hyi : y = i
    · subst hyi
      rw [Function.update_same] at hy
      exact absurd hy hnew
    · exact hu y (by simpa [Function.update_noteq hyi] using hy)

theorem contStep_eq_initP {n : Nat} {s : ContSys n} {i : Fin n}
    (h : s.tk i = .initP) :
    contStep s i = { s with tk := Function.update s.tk i (.readP s.slot) } := by
  unfold contStep
  rw [h]

theorem contStep_eq_readP {n : Nat} {s : ContSys n} {i : Fin n} {v : Option Nat}
    (h : s.tk i = .readP v) :
    contStep s i = { slot := (casTake s.slot v).2,
                     tk := Function.update s.tk i (.doneP (casTake s.slot v).1) } := by
  unfold contStep
  rw [h]

theorem contStep_eq_doneP {n : Nat} {s : ContSys n} {i : Fin n} {r : Option Nat}
    (h : s.tk i = .doneP r) : contStep s i = s := by
  unfold contStep
  rw [h]

theorem contStep_inv {n : Nat} {stk : Nat} {s : ContSys n} (i : Fin n)
    (h : contInv stk s) : contInv stk (contStep s i) := by
  obtain ⟨h1, h2, h3, h4⟩ := h
  cases hti : s.tk i with
  | initP =>
    rw [contStep_eq_initP hti]
    refine ⟨?_, h2, ?_, ?_⟩
    · intro j
      by_cases hj : j = i
      · subst hj
        simp only [Function.update_same, phOk]
        rcases h2 with h2 | h2 <;> simp [h2]
      · simpa [Function.update_noteq hj] using h1 j
    · intro hs j
      replace hs : s.slot = some stk := hs
      by_cases hj : j = i
      · subst hj; simp [Function.update_same, hs]
      · simpa [Function.update_noteq hj] using h3 hs j
    · intro hs
      replace hs : s.slot = none := hs
      exact exu_update (by simp [hti]) (by simp) (h4 hs)
  | readP v =>
    rw [contStep_eq_readP hti]
    rcases h2 with h2 | h2
    · -- slot still holds the segment: the read value must be `some stk`
      have hv : v = some stk := by
        rcases h3 h2 i with hx | hx
        · rw [hti] at hx; cases hx
        · rw [hti] at hx; cases hx; rfl
      subst hv
      -- the CAS succeeds: slot becomes none, taker i is the unique winner
      refine ⟨?_, ?_, ?_, ?_⟩
      · intro j
        by_cases hj : j = i
        · subst hj; simp [casTake, h2, Function.update_same, phOk]
        · simpa [Function.update_noteq hj] using h1 j
      · simp [casTake, h2]
      · intro hs
        simp [casTake, h2] at hs
      · intro _
        refine ⟨i, ?_, ?_⟩
        · simp [casTake, h2, Function.update_same]
        · intro y hy
          by_cases hyi : y = i
          · exact hyi
          · exfalso
            simp only [casTake, h2, if_pos rfl] at hy
            rw [Function.update_noteq hyi] at hy
            rcases h3 h2 y with hx | hx <;> rw [hx] at hy <;> cases hy
    · -- slot is already none
      have hcas : casTake s.slot v = (none, none) := by
        rcases h1 i with h1i
        rw [hti] at h1i
        rcases h1i with hv | hv <;> subst hv <;> simp [casTake, h2]
      refine ⟨?_, ?_, ?_, ?_⟩
      · intro j
        by_cases hj : j = i
        · subst hj; simp [hcas, Function.update_same, phOk]
        · simpa [Function.update_noteq hj] using h1 j
      · simp [hcas]
      · intro hs
        rw [hcas] at hs
        simp at hs
      · intro _
        rw [hcas]
        exact exu_update (by simp [hti]) (by simp) (h4 h2)
  | doneP r =>
    rw [contStep_eq_doneP hti]
    exact ⟨h1, h2, h3, h4⟩

theorem contRun_inv {n : Nat} {stk : Nat} {s : ContSys n} (l : List (Fin n))
    (h : contInv stk s) : contInv stk (contRun s l) := by
  induction l generalizing s with
  | nil => exact h
  | cons i l ih => exact ih (contStep_inv i h)

theorem contInit_inv (n stk : Nat) : contInv stk (contInit n stk) := by
  refine ⟨fun i => trivial, Or.inl rfl, fun _ i => Or.inl rfl, fun hs => ?_⟩
  simp [contInit] at hs

/-- C1: among any number of concurrent `caml_continuation_use_noexc` calls
on a continuation holding the segment `stk`, under every schedule in which
all the callers complete, exactly one caller returns `some stk`, every
other caller returns the null sentinel, the slot ends up null, and a
further (sequential) take before any replace also returns the null
sentinel. -/
theorem continuation_take_exactly_once (n stk : Nat) (l : List (Fin n))
    (hn : 0 < n)
    (hall : ∀ i, isDoneP ((contRun (contInit n stk) l).tk i) = true) :
    (∃! i : Fin n, (contRun (contInit n stk) l).tk i = .doneP (some stk)) ∧
    (∀ i r, (contRun (contInit n stk) l).tk i = .doneP r →
        r = some stk ∨ r = none) ∧
    (contRun (contInit n stk) l).slot = none ∧
    caml_continuation_use_noexc_seq (contRun (contInit n stk) l).slot =
      (none, none) := by
  have hinv := contRun_inv l (contInit_inv n stk)
  obtain ⟨h1, h2, h3, h4⟩ := hinv
  have hslot : (contRun (contInit n stk) l).slot = none := by
    rcases h2 with h2 | h2
    · exfalso
      have hi := hall ⟨0, hn⟩
      rcases h3 h2 ⟨0, hn⟩ with hx | hx <;> rw [hx] at hi <;> simp [isDoneP] at hi
    · exact h2
  refine ⟨h4 hslot, ?_, hslot, ?_⟩
  · intro i r hr
    have := h1 i
    rw [hr] at this
    exact this
  · rw [hslot]
    rfl

/-- C1 witness: two takers, segment 7, interleaved schedule
read(0), read(1), cas(0), cas(1): both complete, and the conclusions of
`continuation_take_exactly_once` hold. -/
theorem continuation_take_exactly_once_witness :
    (∃! i : Fin 2,
        (contRun (contInit 2 7) [0, 1, 0, 1]).tk i = .doneP (some 7)) ∧
    (∀ i r, (contRun (contInit 2 7) [0, 1, 0, 1]).tk i = .doneP r →
        r = some 7 ∨ r = none) ∧
    (contRun (contInit 2 7) [0, 1, 0, 1]).slot = none ∧
    caml_continuation_use_noexc_seq (contRun (contInit 2 7) [0, 1, 0, 1]).slot =
      (none, none) :=
  continuation_take_exactly_once 2 7 [0, 1, 0, 1] (by decide) (by decide)

/-- C7: installing a segment into an empty continuation with
`caml_continuation_replace` and then taking it with
`caml_continuation_use_noexc` returns exactly the installed segment (both
on the shared CAS path and on the lone-domain path), leaving the slot
empty. -/
theorem replace_then_take (stk : Nat) :
    (caml_continuation_replace none stk).1 = true ∧
    caml_continuation_use_noexc_seq (caml_continuation_replace none stk).2 =
      (some stk, none) ∧
    useNoexcAlone (caml_continuation_replace none stk).2 = (some stk, none) := by
  refine ⟨rfl, ?_, rfl⟩
  simp [caml_continuation_replace, caml_continuation_use_noexc_seq, casTake]

/-- C8: `caml_continuation_use` raises the `Continuation_already_resumed`
condition exactly when the stored value was already the null sentinel, and
returns the stored segment without raising otherwise. -/
theorem use_raises_iff_already_taken (slot : Option Nat) :
    ((caml_continuation_use_seq slot).1 = .raisedAlreadyResumed ↔ slot = none) ∧
    (∀ s, slot = some s → (caml_continuation_use_seq slot).1 = .ok s) := by
  cases slot with
  | none =>
      refine ⟨by simp [caml_continuation_use_seq, caml_continuation_use_noexc_seq,
        casTake], ?_⟩
      intro s hs
      cases hs
  | some t =>
      refine ⟨?_, ?_⟩
      · simp [caml_continuation_use_seq, caml_continuation_use_noexc_seq, casTake]
      · intro s hs
        cases hs
        simp [caml_continuation_use_seq, caml_continuation_use_noexc_seq, casTake]

/-- C8 witness: on a continuation holding segment 3, the strict take
returns that segment without raising. -/
theorem use_raises_iff_already_taken_witness :
    (caml_continuation_use_seq (some 3)).1 = .ok 3 :=
  (use_raises_iff_already_taken (some 3)).2 3 rfl

/-- C10: calling `caml_continuation_replace` on a continuation whose slot
is non-empty makes the CAS fail (the flag the debug-build `CAMLassert`
checks is `false`) and leaves the stored segment unchanged: the installed
segment is never overwritten, and in release builds the call has no
effect. -/
theorem replace_on_nonempty_noop (t s : Nat) :
    caml_continuation_replace (some t) s = (false, some t) := by
  simp [caml_continuation_replace]

/-! ### Stack growth: `caml_try_realloc_stack` (fiber.c:780-866)

The size-selection loop (fiber.c:794-797) is
```
  do {
    if (wsize >= caml_max_stack_wsize) return 0;
    wsize *= 2;
  } while (wsize < stack_used + required_space);
```
starting from the old total size.  It is embedded with explicit fuel
(`growWsizeIter`); in C the loop can diverge only in the degenerate case
`wsize = 0`, and `growWsizeIter_isSome` shows the fuel `maxW + 1` used by
`newStackWsize` is always sufficient for a positive starting size.  The
outer `Option` is fuel exhaustion, the inner `none` is the loop's
`return 0` (stack overflow). -/

/-- The capacity-doubling loop of `caml_try_realloc_stack`, with fuel. -/
def growWsizeIter (maxW need : Nat) : Nat → Nat → Option (Option Nat)
  | 0, _ => none
  | fuel + 1, wsize =>
    if maxW ≤ wsize then some none
    else
      if 2 * wsize < need then growWsizeIter maxW need fuel (2 * wsize)
      else some (some (2 * wsize))

/-- New total capacity chosen by `caml_try_realloc_stack` for an old
capacity `w0`, with `need = stack_used + required_space`; `none` means the
loop returned 0 (stack overflow). -/
def newStackWsize (maxW need w0 : Nat) : Option Nat :=
  (growWsizeIter maxW need (maxW + 1) w0).getD none

theorem growWsizeIter_isSome (maxW need : Nat) :
    ∀ fuel w, 0 < w → maxW - w < fuel → (growWsizeIter maxW need fuel w).isSome := by
  intro fuel
  induction fuel with
  | zero => intro w hw hf; omega
  | succ f ih =>
    intro w hw hf
    unfold growWsizeIter
    by_cases hmax : maxW ≤ w
    · simp [hmax]
    · rw [if_neg hmax]
      by_cases hneed : 2 * w < need
      · rw [if_pos hneed]
        exact ih (2 * w) (by omega) (by omega)
      · simp [hneed]

theorem growWsizeIter_success (maxW need : Nat) :
    ∀ fuel w r, growWsizeIter maxW need fuel w = some (some r) →
      ∃ k, 1 ≤ k ∧ r = w * 2 ^ k ∧ need ≤ r ∧
        (∀ j, 1 ≤ j → j < k → w * 2 ^ j < need) ∧
        (∀ j, j < k → w * 2 ^ j < maxW) := by
  intro fuel
  induction fuel with
  | zero => intro w r h; cases h
  | succ f ih =>
    intro w r h
    unfold growWsizeIter at h
    by_cases hmax : maxW ≤ w
    · rw [if_pos hmax] at h; cases h
    · rw [if_neg hmax] at h
      by_cases hneed : 2 * w < need
      · rw [if_pos hneed] at h
        obtain ⟨k, hk1, hr, hnr, hmin, hchk⟩ := ih (2 * w) r h
        refine ⟨k + 1, by omega, ?_, hnr, ?_, ?_⟩
        · rw [hr, pow_succ]; ring
        · intro j hj1 hjk
          match j, hj1 with
          | 1, _ => simpa [pow_one, Nat.mul_comm] using hneed
          | j' + 2, _ =>
            have := hmin (j' + 1) (by omega) (by omega)
            calc w * 2 ^ (j' + 2) = 2 * w * 2 ^ (j' + 1) := by ring
            _ < need := this
        · intro j hjk
          match j with
          | 0 => simpa using (by omega : w < maxW)
          | j' + 1 =>
            have := hchk j' (by omega)
            calc w * 2 ^ (j' + 1) = 2 * w * 2 ^ j' := by ring
            _ < maxW := this
      · rw [if_neg hneed] at h
        injection h with h
        injection h with h
        refine ⟨1, le_refl 1, ?_, by omega, ?_, ?_⟩
        · rw [← h]; ring
        · intro j hj1 hjk; omega
        · intro j hjk
          have : j = 0 := by omega
          subst this
          simpa using (by omega : w < maxW)

theorem growWsizeIter_fail (maxW need : Nat) :
    ∀ fuel w, growWsizeIter maxW need fuel w = some none →
      ∃ j, maxW ≤ w * 2 ^ j ∧ ∀ i, 1 ≤ i → i ≤ j → w * 2 ^ i < need := by
  intro fuel
  induction fuel with
  | zero => intro w h; cases h
  | succ f ih =>
    intro w h
    unfold growWsizeIter at h
    by_cases hmax : maxW ≤ w
    · exact ⟨0, by simpa using hmax, fun i hi1 hi0 => by omega⟩
    · rw [if_neg hmax] at h
      by_cases hneed : 2 * w < need
      · rw [if_pos hneed] at h
        obtain ⟨j, hj, hins⟩ := ih (2 * w) h
        refine ⟨j + 1, by calc maxW ≤ 2 * w * 2 ^ j := hj
                          _ = w * 2 ^ (j + 1) := by ring, ?_⟩
        intro i hi1 hij
        match i, hi1 with
        | 1, _ => simpa [pow_one, Nat.mul_comm] using hneed
        | i' + 2, _ =>
          have := hins (i' + 1) (by omega) (by omega)
          calc w * 2 ^ (i' + 2) = 2 * w * 2 ^ (i' + 1) := by ring
          _ < need := this
      · rw [if_neg hneed] at h
        cases h

/-- C3 (amended): the capacity chosen by the doubling loop of
`caml_try_realloc_stack` is strictly larger than the old capacity, it
covers the in-use words plus the requested headroom, it is the smallest
at-least-once-doubled multiple of the old capacity that does so, and the
loop fails (returns 0, i.e. stack overflow) exactly when some doubling
`w0 * 2 ^ j` with every doubling up to it still insufficient already
reaches the configured maximum — so the chosen capacity itself may exceed
the configured maximum. -/
theorem try_realloc_capacity_spec (maxW need w0 : Nat) (h0 : 0 < w0) :
    (∀ w, newStackWsize maxW need w0 = some w →
        w0 < w ∧ need ≤ w ∧
        (∃ k, 1 ≤ k ∧ w = w0 * 2 ^ k) ∧
        (∀ k, 1 ≤ k → need ≤ w0 * 2 ^ k → w ≤ w0 * 2 ^ k)) ∧
    (newStackWsize maxW need w0 = none ↔
      ∃ j, maxW ≤ w0 * 2 ^ j ∧ ∀ i, 1 ≤ i → i ≤ j → w0 * 2 ^ i < need) := by
  have hsome := growWsizeIter_isSome maxW need (maxW + 1) w0 h0 (by omega)
  constructor
  · intro w hw
    unfold newStackWsize at hw
    cases hres : growWsizeIter maxW need (maxW + 1) w0 with
    | none => rw [hres] at hsome; cases hsome
    | some o =>
      rw [hres] at hw
      simp only [Option.getD_some] at hw
      subst hw
      obtain ⟨k, hk1, hr, hnr, hmin, hchk⟩ :=
        growWsizeIter_success maxW need (maxW + 1) w0 w hres
      refine ⟨?_, hnr, ⟨k, hk1, hr⟩, ?_⟩
      · have h2 : 2 ^ 1 ≤ 2 ^ k := Nat.pow_le_pow_right (by omega) hk1
        have : w0 * 2 ^ 1 ≤ w0 * 2 ^ k := Nat.mul_le_mul_left w0 h2
        rw [hr]
        simp [pow_one] at this
        omega
      · intro k' hk'1 hk'need
        by_cases hkk : k ≤ k'
        · rw [hr]
          exact Nat.mul_le_mul_left w0 (Nat.pow_le_pow_right (by omega) hkk)
        · exact absurd hk'need (by simpa using hmin k' hk'1 (by omega))
  · constructor
    · intro hnone
      unfold newStackWsize at hnone
      cases hres : growWsizeIter maxW need (maxW + 1) w0 with
      | none => rw [hres] at hsome; cases hsome
      | some o =>
        rw [hres] at hnone
        simp only [Option.getD_some] at hnone
        subst hnone
        exact growWsizeIter_fail maxW need (maxW + 1) w0 hres
    · intro ⟨j, hj, hins⟩
      unfold newStackWsize
      cases hres : growWsizeIter maxW need (maxW + 1) w0 with
      | none => rw [hres] at hsome; cases hsome
      | some o =>
        cases o with
        | none => rfl
        | some r =>
          exfalso
          obtain ⟨k, hk1, hr, hnr, hmin, hchk⟩ :=
            growWsizeIter_success maxW need (maxW + 1) w0 r hres
          by_cases hkj : k ≤ j
          · have := hins k hk1 hkj
            rw [hr] at hnr
            omega
          · have := hchk j (by omega)
            omega

/-- C3 witness: with maximum 100, need 3 and old capacity 4 the loop
chooses 8, the smallest at-least-once-doubled multiple of 4 covering 3. -/
theorem try_realloc_capacity_spec_witness :
    (4 : Nat) < 8 ∧ (3 : Nat) ≤ 8 ∧
    (∃ k, 1 ≤ k ∧ (8 : Nat) = 4 * 2 ^ k) ∧
    (∀ k, 1 ≤ k → (3 : Nat) ≤ 4 * 2 ^ k → (8 : Nat) ≤ 4 * 2 ^ k) :=
  (try_realloc_capacity_spec 100 3 4 (by decide)).1 8 (by decide)

/-- C3 counterexample to the claim as stated: with old capacity 100,
maximum 150 and in-use-plus-headroom 120, no size class `100 * 2 ^ k`
sufficient for 120 lies at or below the maximum 150, yet the loop succeeds
(returning 200 rather than failing); the chosen capacity is also not the
smallest sufficient size class (100 itself is not chosen at need 90, where
the loop still returns 200). -/
theorem try_realloc_capacity_claim_false :
    newStackWsize 150 120 100 = some 200 ∧
    (∀ k : Nat, 120 ≤ 100 * 2 ^ k → 150 < 100 * 2 ^ k) ∧
    newStackWsize 1000 90 100 = some 200 ∧ 90 ≤ 100 * 2 ^ 0 ∧ 100 * 2 ^ 0 < 200 := by
  refine ⟨by decide, ?_, by decide, by decide, by decide⟩
  intro k hk
  match k with
  | 0 => simp at hk
  | k' + 1 =>
    have h1 : 1 ≤ 2 ^ k' := Nat.one_le_two_pow
    calc (150 : Nat) < 200 * 1 := by omega
    _ ≤ 200 * 2 ^ k' := Nat.mul_le_mul_left 200 h1
    _ = 100 * 2 ^ (k' + 1) := by ring

/-! #### The reallocation itself (fiber.c:809-820)

```
  new_stack = caml_alloc_stack_noexc(wsize, Stack_handle_value(old_stack),
                 Stack_handle_exception(old_stack),
                 Stack_handle_effect(old_stack), old_stack->id);
  if (!new_stack) return 0;
  memcpy(Stack_high(new_stack) - stack_used,
         Stack_high(old_stack) - stack_used, stack_used * sizeof(value));
  new_stack->sp = Stack_high(new_stack) - stack_used;
  Stack_parent(new_stack) = Stack_parent(old_stack);
```
A segment is modelled with its word contents listed from `Stack_base`
(index 0) to `Stack_high` (index `content.length`); `sp` is the index of
the stack top, so the live region is `content.drop sp`.  The raw memory
provider `alloc_for_stack` (mmap / malloc, plus the free-list pop of
`alloc_size_class_stack_noexc`, both of which return memory with arbitrary
prior contents) is a parameter `fresh` returning the raw words of a new
segment, or `none` on allocation failure. -/

/-- A stack segment (`struct stack_info` plus its `stack_handler`). -/
structure StackInfo where
  content : List Int
  sp : Nat
  hval : Int
  hexn : Int
  heff : Int
  parent : Option Nat
  id : Int
deriving DecidableEq

/-- Words in use: `Stack_high(stk) - stk->sp`. -/
def stackUsed (s : StackInfo) : Nat := s.content.length - s.sp

/-- Embeds `caml_try_realloc_stack` (fiber.c:780-866) acting on the current
segment: choose the new capacity, allocate (handler triple and id are
passed through to `caml_alloc_stack_noexc`), copy the live suffix to the
top of the new segment, set the new `sp`, preserve the parent link. -/
def tryReallocStack (maxW : Nat) (fresh : Nat → Option (List Int))
    (required : Nat) (old : StackInfo) : Option StackInfo :=
  match newStackWsize maxW (stackUsed old + required) old.content.length with
  | none => none
  | some w =>
    match fresh w with
    | none => none
    | some raw =>
      some { content := raw.take (w - stackUsed old) ++ old.content.drop old.sp,
             sp := w - stackUsed old,
             hval := old.hval, hexn := old.hexn, heff := old.heff,
             parent := old.parent, id := old.id }

theorem newStackWsize_need_le (maxW need w0 w : Nat)
    (h : newStackWsize maxW need w0 = some w) : need ≤ w := by
  unfold newStackWsize at h
  cases hres : growWsizeIter maxW need (maxW + 1) w0 with
  | none => rw [hres] at h; cases h
  | some o =>
    rw [hres] at h
    simp only [Option.getD_some] at h
    subst h
    obtain ⟨k, _, _, hnr, _, _⟩ := growWsizeIter_success maxW need (maxW + 1) w0 w hres
    exact hnr

/-- C2: whenever `caml_try_realloc_stack` succeeds, the live suffix of the
old segment (the words from `sp` to `Stack_high`) appears byte-for-byte at
the corresponding region of the new segment, the new `sp` leaves the
in-use word count unchanged, and the parent link, id and handler triple of
the old segment are carried over. -/
theorem realloc_preserves_content (maxW req : Nat)
    (fresh : Nat → Option (List Int)) (old nw : StackInfo)
    (hfresh : ∀ w l, fresh w = some l → l.length = w)
    (h : tryReallocStack maxW fresh req old = some nw) :
    nw.content.drop nw.sp = old.content.drop old.sp ∧
    stackUsed nw = stackUsed old ∧
    nw.parent = old.parent ∧ nw.id = old.id ∧
    nw.hval = old.hval ∧ nw.hexn = old.hexn ∧ nw.heff = old.heff := by
  unfold tryReallocStack at h
  cases hw : newStackWsize maxW (stackUsed old + req) old.content.length with
  | none => rw [hw] at h; cases h
  | some w =>
    rw [hw] at h
    dsimp only at h
    cases hraw : fresh w with
    | none => rw [hraw] at h; cases h
    | some raw =>
      rw [hraw] at h
      dsimp only at h
      injection h with h
      subst h
      have hrawlen : raw.length = w := hfresh w raw hraw
      have hused : stackUsed old ≤ w := by
        have := newStackWsize_need_le _ _ _ _ hw
        omega
      have hlen : (raw.take (w - stackUsed old)).length = w - stackUsed old := by
        rw [List.length_take]
        omega
      refine ⟨List.drop_left' hlen, ?_, rfl, rfl, rfl, rfl, rfl⟩
      simp only [stackUsed, List.length_append, List.length_take, List.length_drop]
      have h1 : stackUsed old = old.content.length - old.sp := rfl
      omega

/-- C2 witness: growing a 4-word segment with 2 live words `[3, 4]` and
one word of requested headroom to an 8-word segment preserves the live
suffix, the in-use count, the parent, id and handler triple. -/
theorem realloc_preserves_content_witness :
    ([0, 0, 0, 0, 0, 0, 3, 4] : List Int).drop 6 =
      ([1, 2, 3, 4] : List Int).drop 2 ∧
    stackUsed (StackInfo.mk [0, 0, 0, 0, 0, 0, 3, 4] 6 5 6 7 (some 9) 11) =
      stackUsed (StackInfo.mk [1, 2, 3, 4] 2 5 6 7 (some 9) 11) ∧
    (some 9 : Option Nat) = some 9 ∧ (11 : Int) = 11 ∧
    (5 : Int) = 5 ∧ (6 : Int) = 6 ∧ (7 : Int) = 7 :=
  realloc_preserves_content 100 1 (fun w => some (List.replicate w 0))
    (StackInfo.mk [1, 2, 3, 4] 2 5 6 7 (some 9) 11)
    (StackInfo.mk [0, 0, 0, 0, 0, 0, 3, 4] 6 5 6 7 (some 9) 11)
    (fun w l h => by injection h with h; rw [← h]; exact List.length_replicate w 0)
    (by decide)

/-- The runtime state `caml_try_realloc_stack` can mutate on behalf of the
old segment: `Caml_state->current_stack` and the segment it points to. -/
structure RuntimeState where
  currentStack : StackInfo
deriving DecidableEq

/-- Embeds `caml_try_realloc_stack` as a state transformer on
`Caml_state->current_stack`, returning the C function's 0/1 result.  In
the C code every mutation (the copy into the new segment, the new `sp`,
the parent link, the exception-chain and c_stack fixups, the free of the
old segment, the `current_stack` update) happens after both failure
returns (fiber.c:795 and fiber.c:815), which only read the old segment. -/
def tryReallocStackRun (maxW : Nat) (fresh : Nat → Option (List Int))
    (required : Nat) (st : RuntimeState) : Bool × RuntimeState :=
  match tryReallocStack maxW fresh required st.currentStack with
  | none => (false, st)
  | some nw => (true, { currentStack := nw })

/-- C4: when `caml_try_realloc_stack` fails (returns 0), the old segment
is not mutated in any way — its `sp`, contents, parent link, handler
triple and id are exactly as before the call — and the current stack is
unchanged. -/
theorem realloc_failure_no_mutation (maxW req : Nat)
    (fresh : Nat → Option (List Int)) (st : RuntimeState)
    (h : (tryReallocStackRun maxW fresh req st).1 = false) :
    (tryReallocStackRun maxW fresh req st).2 = st ∧
    (tryReallocStackRun maxW fresh req st).2.currentStack.sp = st.currentStack.sp ∧
    (tryReallocStackRun maxW fresh req st).2.currentStack.content =
      st.currentStack.content ∧
    (tryReallocStackRun maxW fresh req st).2.currentStack.parent =
      st.currentStack.parent ∧
    (tryReallocStackRun maxW fresh req st).2.currentStack.hval = st.currentStack.hval ∧
    (tryReallocStackRun maxW fresh req st).2.currentStack.hexn = st.currentStack.hexn ∧
    (tryReallocStackRun maxW fresh req st).2.currentStack.heff = st.currentStack.heff ∧
    (tryReallocStackRun maxW fresh req st).2.currentStack.id = st.currentStack.id := by
  unfold tryReallocStackRun at h ⊢
  cases hres : tryReallocStack maxW fresh req st.currentStack with
  | none => exact ⟨rfl, rfl, rfl, rfl, rfl, rfl, rfl, rfl⟩
  | some nw => rw [hres] at h; cases h

/-- C4 witness: a failed growth (old capacity already at the maximum)
leaves the runtime state untouched. -/
theorem realloc_failure_no_mutation_witness :
    (tryReallocStackRun 4 (fun _ => none) 1
        (RuntimeState.mk (StackInfo.mk [0, 0, 0, 0] 4 0 0 0 none 0))).2 =
      RuntimeState.mk (StackInfo.mk [0, 0, 0, 0] 4 0 0 0 none 0) ∧
    (tryReallocStackRun 4 (fun _ => none) 1
        (RuntimeState.mk (StackInfo.mk [0, 0, 0, 0] 4 0 0 0 none 0))).2.currentStack.sp = 4 ∧
    (tryReallocStackRun 4 (fun _ => none) 1
        (RuntimeState.mk (StackInfo.mk [0, 0, 0, 0] 4 0 0 0 none 0))).2.currentStack.content =
      [0, 0, 0, 0] ∧
    (tryReallocStackRun 4 (fun _ => none) 1
        (RuntimeState.mk (StackInfo.mk [0, 0, 0, 0] 4 0 0 0 none 0))).2.currentStack.parent =
      none ∧
    (tryReallocStackRun 4 (fun _ => none) 1
        (RuntimeState.mk (StackInfo.mk [0, 0, 0, 0] 4 0 0 0 none 0))).2.currentStack.hval = 0 ∧
    (tryReallocStackRun 4 (fun _ => none) 1
        (RuntimeState.mk (StackInfo.mk [0, 0, 0, 0] 4 0 0 0 none 0))).2.currentStack.hexn = 0 ∧
    (tryReallocStackRun 4 (fun _ => none) 1
        (RuntimeState.mk (StackInfo.mk [0, 0, 0, 0] 4 0 0 0 none 0))).2.currentStack.heff = 0 ∧
    (tryReallocStackRun 4 (fun _ => none) 1
        (RuntimeState.mk (StackInfo.mk [0, 0, 0, 0] 4 0 0 0 none 0))).2.currentStack.id = 0 :=
  realloc_failure_no_mutation 4 1 (fun _ => none)
    (RuntimeState.mk (StackInfo.mk [0, 0, 0, 0] 4 0 0 0 none 0)) (by decide)

/-! ### The GC root visit policy: `visit` (fiber.c:315-362)

Memory is modelled word-granularly with `Int` addresses: `hdr` maps a
word address to the header stored there, `fieldv` maps a word address to
the value stored there (headers and value slots never overlap in a
well-formed heap, so the two maps are kept separate).  An OCaml `value`
is either an immediate (`Is_block` false) or a pointer to the first field
of a block, whose header is one word below.  A header carries the tag,
the 2-bit status ("color"), the size in words and the scannable prefix
size (`Scannable_wosize_hd`, which for mixed blocks can be smaller than
the size); for an `Infix_tag` header the size field holds the infix
offset in words (`Infix_offset_val`).  `HdrV.uninit` is the
`Local_uninit_hd` arena boundary sentinel (modelled from the spec: a
boundary sentinel header marks the lowest address of an arena; its stated
tag/color are immaterial because the scanners compare it for identity
first). -/

/-- An OCaml `value`: immediate or block pointer. -/
inductive Val where
  | imm (n : Int)
  | ptr (a : Int)
deriving DecidableEq

instance : Inhabited Val := ⟨.imm 0⟩

/-- The fixed `NOT_MARKABLE` status: the color of local-arena blocks and
other non-collectible blocks, never a color of the major-heap cycle. -/
def NOT_MARKABLE : Nat := 3

/-- The `Infix_tag` constant. -/
def Infix_tag : Nat := 249

/-- The `Closure_tag` constant. -/
def Closure_tag : Nat := 247

/-- The `Cont_tag` constant. -/
def Cont_tag : Nat := 245

/-- The `No_scan_tag` constant: tags at or above it mark blocks without scannable
fields. -/
def No_scan_tag : Nat := 251

/-- A block header word, or the `Local_uninit_hd` arena boundary
sentinel. -/
inductive HdrV where
  | uninit
  | mk (tag color wosize scansize : Nat)
deriving DecidableEq

/-- Embeds `Tag_hd`. -/
def tagOf : HdrV → Nat
  | .uninit => 0
  | .mk t _ _ _ => t

/-- Embeds `Color_hd` (the header status bits). -/
def colorOf : HdrV → Nat
  | .uninit => NOT_MARKABLE
  | .mk _ c _ _ => c

/-- Embeds `Wosize_hd` (for an `Infix_tag` header this is the infix offset in
words, i.e. `Infix_offset_val`). -/
def wosizeOf : HdrV → Nat
  | .uninit => 0
  | .mk _ _ w _ => w

/-- Embeds `Scannable_wosize_hd`. -/
def scanWosizeOf : HdrV → Nat
  | .uninit => 0
  | .mk _ _ _ s => s

/-- Embeds `With_status_hd`: same header with the given color. -/
def withColor : HdrV → Nat → HdrV
  | .uninit, _ => .uninit
  | .mk t _ w s, c => .mk t c w s

/-- One local arena (`struct caml_local_arena`), word-granular. -/
structure Arena where
  base : Int
  length : Int
deriving DecidableEq

instance : Inhabited Arena := ⟨⟨0, 0⟩⟩

/-- Embeds `get_local_ix` (fiber.c:296-307): index of the first arena whose
range contains the value address, if any. -/
def get_local_ix (A : List Arena) (a : Int) : Option Nat :=
  A.findIdx? fun ar => decide (ar.base ≤ a) && decide (a < ar.base + ar.length)

/-- Resolution of an interior (infix) pointer back to the containing
block: `if (Tag_hd(hd) == Infix_tag) vblock -= Infix_offset_val(v)`. -/
def infixResolve (hdr : Int → HdrV) (a : Int) : Int :=
  if tagOf (hdr (a - 1)) = Infix_tag then a - (wosizeOf (hdr (a - 1)) : Int) else a

/-- Embeds `visit` (fiber.c:315-362).  Returns the header map after the call
(it can mark one local block with `colors.GARBAGE`), the list of calls to
the scanning action `f` (each `(value, root address)` pair), and the
returned arena index (`none` for -1). -/
def visit (young : Int → Bool) (locals : Option (List Arena)) (garbage : Nat)
    (hdr : Int → HdrV) (fieldv : Int → Val) (p : Int) :
    (Int → HdrV) × List (Val × Int) × Option Nat :=
  match fieldv p with
  | .imm _ => (hdr, [], none)
  | .ptr a =>
    if young a then (hdr, [(Val.ptr a, p)], none)
    else
      let vblock := infixResolve hdr a
      let hd := hdr (vblock - 1)
      if colorOf hd = garbage then (hdr, [], none)
      else if colorOf hd = NOT_MARKABLE then
        match locals with
        | none => (hdr, [], none)
        | some A =>
          match get_local_ix A vblock with
          | none => (hdr, [], none)
          | some ix =>
            (Function.update hdr (vblock - 1) (withColor hd garbage), [], some ix)
      else (hdr, [(Val.ptr a, p)], none)

/-- The uniform per-root visit policy in the spec's phrasing, classifying
the resolved block by region (`major` says whether an address is a
major-heap block): a non-reference is ignored; a young reference is
forwarded; a major-heap reference is forwarded after resolving any
interior offset back to the block's start; a local-arena reference is not
forwarded but marked for the arena scanner, unless already marked this
pass, in which case it is skipped; a foreign/static reference is
skipped. -/
def visitRootPolicy (young major : Int → Bool) (locals : Option (List Arena))
    (garbage : Nat) (hdr : Int → HdrV) (fieldv : Int → Val) (p : Int) :
    (Int → HdrV) × List (Val × Int) × Option Nat :=
  match fieldv p with
  | .imm _ => (hdr, [], none)
  | .ptr a =>
    if young a then (hdr, [(Val.ptr a, p)], none)
    else
      let vblock := infixResolve hdr a
      if major vblock then (hdr, [(Val.ptr a, p)], none)
      else
        match locals with
        | some A =>
          match get_local_ix A vblock with
          | some ix =>
            if colorOf (hdr (vblock - 1)) = garbage then (hdr, [], none)
            else
              (Function.update hdr (vblock - 1)
                 (withColor (hdr (vblock - 1)) garbage), [], some ix)
          | none => (hdr, [], none)
        | none => (hdr, [], none)

/-- C5: `visit` implements the spec's per-root policy, given that region
classification agrees with the color state (an address is a major-heap
block exactly when its header color is neither the pass-local mark color
nor `NOT_MARKABLE`). -/
theorem visit_policy (young major : Int → Bool) (locals : Option (List Arena))
    (garbage : Nat) (hdr : Int → HdrV) (fieldv : Int → Val) (p : Int)
    (hclass : ∀ b : Int, major b = true ↔
      (colorOf (hdr (b - 1)) ≠ garbage ∧ colorOf (hdr (b - 1)) ≠ NOT_MARKABLE)) :
    visit young locals garbage hdr fieldv p =
      visitRootPolicy young major locals garbage hdr fieldv p := by
  unfold visit visitRootPolicy
  cases hv : fieldv p with
  | imm n => rfl
  | ptr a =>
    dsimp only
    cases hy : young a with
    | true => simp
    | false =>
      simp only [Bool.false_eq_true, if_false]
      by_cases hg : colorOf (hdr (infixResolve hdr a - 1)) = garbage
      · have hmaj : major (infixResolve hdr a) = false := by
          rw [← Bool.not_eq_true, hclass]
          intro hc
          exact hc.1 hg
        rw [if_pos hg, hmaj]
        simp only [Bool.false_eq_true, if_false]
        cases locals with
        | none => rfl
        | some A =>
          dsimp only
          cases hix : get_local_ix A (infixResolve hdr a) with
          | none => rfl
          | some ix =>
            dsimp only
            rw [if_pos hg]
      · rw [if_neg hg]
        by_cases hnm : colorOf (hdr (infixResolve hdr a - 1)) = NOT_MARKABLE
        · have hmaj : major (infixResolve hdr a) = false := by
            rw [← Bool.not_eq_true, hclass]
            intro hc
            exact hc.2 hnm
          rw [if_pos hnm, hmaj]
          simp only [Bool.false_eq_true, if_false]
          cases locals with
          | none => rfl
          | some A =>
            dsimp only
            cases hix : get_local_ix A (infixResolve hdr a) with
            | none => rfl
            | some ix =>
              dsimp only
              rw [if_neg hg]
        · have hmaj : major (infixResolve hdr a) = true := (hclass _).2 ⟨hg, hnm⟩
          rw [if_neg hnm, hmaj]
          simp

/-- C5 witness: a root holding a pointer to an unmarked local-arena block
is handled identically by `visit` and by the spec policy (it is marked,
not forwarded, and its arena index is returned). -/
theorem visit_policy_witness :
    visit (fun _ => false) (some [Arena.mk 10 5]) 0
        (fun x => if x = 9 then HdrV.mk 0 NOT_MARKABLE 1 1 else HdrV.mk 0 1 0 0)
        (fun _ => Val.ptr 10) 0 =
      visitRootPolicy (fun _ => false)
        (fun b =>
          decide (colorOf ((fun x => if x = 9 then HdrV.mk 0 NOT_MARKABLE 1 1
              else HdrV.mk 0 1 0 0) (b - 1)) ≠ 0 ∧
            colorOf ((fun x => if x = 9 then HdrV.mk 0 NOT_MARKABLE 1 1
              else HdrV.mk 0 1 0 0) (b - 1)) ≠ NOT_MARKABLE))
        (some [Arena.mk 10 5]) 0
        (fun x => if x = 9 then HdrV.mk 0 NOT_MARKABLE 1 1 else HdrV.mk 0 1 0 0)
        (fun _ => Val.ptr 10) 0 :=
  visit_policy _ _ _ _ _ _ _ (fun b => by rw [decide_eq_true_eq])

/-! ### Arena scanning: `scan_local_allocations` (fiber.c:364-451)

The walk starts in the most recently added arena (`arena_ix = count - 1`)
at the negative offset `sp = loc->saved_sp` and processes block headers at
`hp = arena.base + arena.length + sp` while `sp < 0`.  A
`Local_uninit_hd` boundary sentinel switches to the previous arena at the
same `sp`; a `NOT_MARKABLE` header is skipped over (`sp += Bhsize`); any
other header is a pass-local mark: the mark is cleared, and unless the
tag forbids scanning, each scannable field is passed to `visit`, which can
mark further (strictly later) local blocks; a marked block behind the
walk is the fatal "backwards local pointer" error.  All quantities are in
words (the C code steps `sp` in bytes; the scaling is uniform).

The embedding instruments the walk with the list `events` of block
headers processed, each tagged with whether the block was marked
(descended into) when reached, and with the list `calls` of visitor
invocations made by `visit` — neither influences control flow. -/

/-- Embeds `Bhsize_hd` in words: header word plus `wosize` fields. -/
def bhsizeOf (h : HdrV) : Nat := wosizeOf h + 1

/-- Result of a completed arena walk: final headers, the processed-block
events `(header address, was marked)`, and the visitor calls. -/
structure ScanRes where
  hdr : Int → HdrV
  events : List (Int × Bool)
  calls : List (Val × Int)

/-- Outcome of the arena walk: normal completion, the fatal errors
(backwards local pointer, or `arena_ix` underflow at a boundary
sentinel), or fuel exhaustion of the embedding. -/
inductive ScanOut where
  | ok (r : ScanRes)
  | fatal
  | fuelOut

/-- The raw address held in a value (`(char*)*p`). -/
def ptrAddr : Val → Int
  | .imm n => n
  | .ptr a => a

/-- The field loop of `scan_local_allocations` (fiber.c:432-448) over one
marked block with header at `hp`: fields `i, i+1, ...` (`cnt` of them) are
passed to `visit`; a marked local block is checked against the forwards
invariant (`sp <= newsp`), else the walk is fatal (`none`). -/
def scanFieldsLoop (young : Int → Bool) (A : List Arena) (garbage : Nat)
    (fieldv : Int → Val) (sp hp : Int) :
    Nat → Nat → (Int → HdrV) → Option ((Int → HdrV) × List (Val × Int))
  | _, 0, hdr => some (hdr, [])
  | i, n + 1, hdr =>
    let r := visit young (some A) garbage hdr fieldv (hp + 1 + i)
    match r.2.2 with
    | none =>
      match scanFieldsLoop young A garbage fieldv sp hp (i + 1) n r.1 with
      | none => none
      | some (h2, cs) => some (h2, r.2.1 ++ cs)
    | some ixm =>
      let ar := A.getD ixm default
      let newsp := ptrAddr (fieldv (hp + 1 + i)) - (ar.base + ar.length)
      if sp ≤ newsp then
        match scanFieldsLoop young A garbage fieldv sp hp (i + 1) n r.1 with
        | none => none
        | some (h2, cs) => some (h2, r.2.1 ++ cs)
      else none

/-- The main loop of `scan_local_allocations` (fiber.c:388-450), with
fuel. -/
def scanLoop (young : Int → Bool) (closStart : Val → Nat) (A : List Arena)
    (garbage : Nat) (fieldv : Int → Val) :
    Nat → Nat → Int → (Int → HdrV) → ScanOut
  | 0, _, _, _ => .fuelOut
  | fuel + 1, ix, sp, hdr =>
    if sp < 0 then
      let hp := (A.getD ix default).base + (A.getD ix default).length + sp
      match hdr hp with
      | .uninit =>
        if ix = 0 then .fatal
        else scanLoop young closStart A garbage fieldv fuel (ix - 1) sp hdr
      | .mk tag color wosize scansize =>
        if color = NOT_MARKABLE then
          match scanLoop young closStart A garbage fieldv fuel ix
              (sp + 1 + wosize) hdr with
          | .ok r => .ok ⟨r.hdr, (hp, false) :: r.events, r.calls⟩
          | o => o
        else
          let hdr1 := Function.update hdr hp (HdrV.mk tag NOT_MARKABLE wosize scansize)
          if No_scan_tag ≤ tag then
            match scanLoop young closStart A garbage fieldv fuel ix
                (sp + 1 + wosize) hdr1 with
            | .ok r => .ok ⟨r.hdr, (hp, true) :: r.events, r.calls⟩
            | o => o
          else
            match scanFieldsLoop young A garbage fieldv sp hp
                (if tag = Closure_tag then closStart (fieldv (hp + 2)) else 0)
                (scansize - (if tag = Closure_tag then closStart (fieldv (hp + 2)) else 0))
                hdr1 with
            | none => .fatal
            | some (h2, cs) =>
              match scanLoop young closStart A garbage fieldv fuel ix
                  (sp + 1 + wosize) h2 with
              | .ok r => .ok ⟨r.hdr, (hp, true) :: r.events, cs ++ r.calls⟩
              | o => o
    else .ok ⟨hdr, [], []⟩

/-- Embeds `scan_local_allocations` (fiber.c:364-451): nothing to do without
local arenas, else walk from the last arena at `saved_sp`. -/
def scan_local_allocations (young : Int → Bool) (closStart : Val → Nat)
    (garbage : Nat) (fieldv : Int → Val) (locals : Option (List Arena))
    (saved_sp : Int) (hdr : Int → HdrV) (fuel : Nat) : ScanOut :=
  match locals with
  | none => .ok ⟨hdr, [], []⟩
  | some A =>
    scanLoop young closStart A garbage fieldv fuel (A.length - 1) saved_sp hdr

/-! #### The well-formed-layout hypotheses for the arena walk

A layout is the sequence of steps the walk is expected to make: block
headers and arena crossings, with each block's arena index, `sp`
position, tag and sizes.  `tilingOk` says the steps tile the offsets from
the starting `sp` up to 0; `sentAddrs` lists the boundary-sentinel
addresses the crossings read; `hdrOkAt` ties a block to the header map;
`ftOkB` restricts a scanned field to the values the runtime can store
there (a non-reference, a young reference, a reference resolving outside
every arena, or — when `allowLocal` is set — a pointer to a strictly
later block of the layout). -/

/-- A block of the arena layout. -/
structure LBlock where
  arena : Nat
  pos : Int
  tag : Nat
  wosize : Nat
  scansize : Nat
deriving DecidableEq

/-- One expected step of the walk. -/
inductive LStep where
  | blk (b : LBlock)
  | cross
deriving DecidableEq

/-- Address of offset `sp` in arena `ix`. -/
def arAddr (A : List Arena) (ix : Nat) (sp : Int) : Int :=
  (A.getD ix default).base + (A.getD ix default).length + sp

/-- Header address of a layout block. -/
def baddr (A : List Arena) (b : LBlock) : Int := arAddr A b.arena b.pos

/-- The blocks of a layout. -/
def blocksOf : List LStep → List LBlock
  | [] => []
  | .blk b :: r => b :: blocksOf r
  | .cross :: r => blocksOf r

/-- The steps tile the offsets from `sp` (in arena `ix`) up to 0. -/
def tilingOk (ix : Nat) (sp : Int) : List LStep → Bool
  | [] => decide (sp = 0)
  | .blk b :: r =>
    decide (b.arena = ix) && decide (b.pos = sp) && decide (sp < 0) &&
      tilingOk ix (sp + 1 + (b.wosize : Int)) r
  | .cross :: r => decide (sp < 0) && decide (0 < ix) && tilingOk (ix - 1) sp r

/-- The boundary-sentinel addresses read by the crossings of a layout. -/
def sentAddrs (A : List Arena) : Nat → Int → List LStep → List Int
  | _, _, [] => []
  | ix, sp, .blk b :: r => sentAddrs A ix (sp + 1 + (b.wosize : Int)) r
  | ix, sp, .cross :: r => arAddr A ix sp :: sentAddrs A (ix - 1) sp r

/-- The header map stores, at the block's address, a header matching the
layout block, colored either `NOT_MARKABLE` (unmarked) or the pass-local
mark color, with the tags the walk asserts. -/
def hdrOkAt (garbage : Nat) (hdr : Int → HdrV) (A : List Arena) (b : LBlock) : Prop :=
  (colorOf (hdr (baddr A b)) = NOT_MARKABLE ∨ colorOf (hdr (baddr A b)) = garbage) ∧
  hdr (baddr A b) = HdrV.mk b.tag (colorOf (hdr (baddr A b))) b.wosize b.scansize ∧
  b.tag ≠ Infix_tag ∧ b.tag ≠ Cont_tag

instance (garbage : Nat) (hdr : Int → HdrV) (A : List Arena) (b : LBlock) :
    Decidable (hdrOkAt garbage hdr A b) := by
  unfold hdrOkAt
  infer_instance

/-- Allowed value of a scanned field: non-reference; young reference;
reference resolving outside every arena (external), whose header word is
not a walked block header and not infix-tagged; or, with `allowLocal`, a
pointer to one of the `later` blocks of the layout. -/
def ftOkB (allowLocal : Bool) (A : List Arena) (young : Int → Bool)
    (hdrInit : Int → HdrV) (allAddrs : List Int) (later : List LBlock) :
    Val → Bool
  | .imm _ => true
  | .ptr a =>
    young a ||
    ((get_local_ix A a == none) && !(tagOf (hdrInit (a - 1)) == Infix_tag) &&
      !(allAddrs.contains (a - 1))) ||
    (allowLocal &&
      later.any fun b => (a == baddr A b + 1) && (get_local_ix A a == some b.arena))

/-- First scanned field index of a block (`Start_env_closinfo` for
closures, 0 otherwise); `closStart` models the external
`Start_env_closinfo` macro reading the closinfo field. -/
def startIxOf (closStart : Val → Nat) (fieldv : Int → Val) (A : List Arena)
    (b : LBlock) : Nat :=
  if b.tag = Closure_tag then closStart (fieldv (baddr A b + 2)) else 0

/-- All scanned fields of a block hold allowed values. -/
def blockFieldsOkB (allowLocal : Bool) (A : List Arena) (young : Int → Bool)
    (hdrInit : Int → HdrV) (allAddrs : List Int) (closStart : Val → Nat)
    (fieldv : Int → Val) (later : List LBlock) (b : LBlock) : Bool :=
  decide (No_scan_tag ≤ b.tag) ||
    (List.range b.scansize).all fun i =>
      if startIxOf closStart fieldv A b ≤ i then
        ftOkB allowLocal A young hdrInit allAddrs later (fieldv (baddr A b + 1 + i))
      else true

/-- All scanned fields of all layout blocks hold allowed values, each
block's local pointers targeting only strictly later blocks. -/
def fieldsOkB (allowLocal : Bool) (A : List Arena) (young : Int → Bool)
    (hdrInit : Int → HdrV) (allAddrs : List Int) (closStart : Val → Nat)
    (fieldv : Int → Val) : List LStep → Bool
  | [] => true
  | .cross :: r => fieldsOkB allowLocal A young hdrInit allAddrs closStart fieldv r
  | .blk b :: r =>
    blockFieldsOkB allowLocal A young hdrInit allAddrs closStart fieldv (blocksOf r) b &&
      fieldsOkB allowLocal A young hdrInit allAddrs closStart fieldv r

/-! #### Evaluation lemmas for `visit` -/

theorem visit_eval_imm (young : Int → Bool) (locals : Option (List Arena))
    (garbage : Nat) (hdr : Int → HdrV) (fieldv : Int → Val) (p : Int) (n : Int)
    (h : fieldv p = .imm n) :
    visit young locals garbage hdr fieldv p = (hdr, [], none) := by
  unfold visit
  rw [h]

theorem visit_eval_young (young : Int → Bool) (locals : Option (List Arena))
    (garbage : Nat) (hdr : Int → HdrV) (fieldv : Int → Val) (p a : Int)
    (h : fieldv p = .ptr a) (hy : young a = true) :
    visit young locals garbage hdr fieldv p = (hdr, [(Val.ptr a, p)], none) := by
  unfold visit
  rw [h]
  dsimp only
  rw [hy]
  simp

theorem visit_eval_skip (young : Int → Bool) (locals : Option (List Arena))
    (garbage : Nat) (hdr : Int → HdrV) (fieldv : Int → Val) (p a : Int)
    (h : fieldv p = .ptr a) (hy : young a = false)
    (ht : tagOf (hdr (a - 1)) ≠ Infix_tag)
    (hc : colorOf (hdr (a - 1)) = garbage) :
    visit young locals garbage hdr fieldv p = (hdr, [], none) := by
  unfold visit
  rw [h]
  dsimp only
  rw [hy]
  have hres : infixResolve hdr a = a := by
    unfold infixResolve
    rw [if_neg ht]
  simp only [hres, Bool.false_eq_true, if_false, hc]
  simp

theorem visit_eval_extNM (young : Int → Bool) (A : List Arena)
    (garbage : Nat) (hdr : Int → HdrV) (fieldv : Int → Val) (p a : Int)
    (h : fieldv p = .ptr a) (hy : young a = false)
    (ht : tagOf (hdr (a - 1)) ≠ Infix_tag)
    (hc : colorOf (hdr (a - 1)) = NOT_MARKABLE)
    (hG : garbage ≠ NOT_MARKABLE)
    (hix : get_local_ix A a = none) :
    visit young (some A) garbage hdr fieldv p = (hdr, [], none) := by
  unfold visit
  rw [h]
  dsimp only
  rw [hy]
  have hres : infixResolve hdr a = a := by
    unfold infixResolve
    rw [if_neg ht]
  simp only [hres, Bool.false_eq_true, if_false, hc]
  rw [if_neg (fun he => hG he.symm)]
  simp [hix]

theorem visit_eval_mark (young : Int → Bool) (A : List Arena)
    (garbage : Nat) (hdr : Int → HdrV) (fieldv : Int → Val) (p a : Int)
    (ixm : Nat)
    (h : fieldv p = .ptr a) (hy : young a = false)
    (ht : tagOf (hdr (a - 1)) ≠ Infix_tag)
    (hc : colorOf (hdr (a - 1)) = NOT_MARKABLE)
    (hG : garbage ≠ NOT_MARKABLE)
    (hix : get_local_ix A a = some ixm) :
    visit young (some A) garbage hdr fieldv p =
      (Function.update hdr (a - 1) (withColor (hdr (a - 1)) garbage), [], some ixm) := by
  unfold visit
  rw [h]
  dsimp only
  rw [hy]
  have hres : infixResolve hdr a = a := by
    unfold infixResolve
    rw [if_neg ht]
  simp only [hres, Bool.false_eq_true, if_false, hc]
  rw [if_neg (fun he => hG he.symm)]
  simp [hix]

theorem visit_eval_major (young : Int → Bool) (locals : Option (List Arena))
    (garbage : Nat) (hdr : Int → HdrV) (fieldv : Int → Val) (p a : Int)
    (h : fieldv p = .ptr a) (hy : young a = false)
    (ht : tagOf (hdr (a - 1)) ≠ Infix_tag)
    (hcg : colorOf (hdr (a - 1)) ≠ garbage)
    (hcn : colorOf (hdr (a - 1)) ≠ NOT_MARKABLE) :
    visit young locals garbage hdr fieldv p = (hdr, [(Val.ptr a, p)], none) := by
  unfold visit
  rw [h]
  dsimp only
  rw [hy]
  have hres : infixResolve hdr a = a := by
    unfold infixResolve
    rw [if_neg ht]
  simp only [hres, Bool.false_eq_true, if_false]
  rw [if_neg hcg, if_neg hcn]

/-- Combined external case: a non-young reference resolving outside every
arena leaves the headers unchanged and returns no arena index, whatever
its color. -/
theorem visit_eval_ext (young : Int → Bool) (A : List Arena)
    (garbage : Nat) (hdr : Int → HdrV) (fieldv : Int → Val) (p a : Int)
    (h : fieldv p = .ptr a) (hy : young a = false)
    (ht : tagOf (hdr (a - 1)) ≠ Infix_tag)
    (hG : garbage ≠ NOT_MARKABLE)
    (hix : get_local_ix A a = none) :
    ∃ cs, visit young (some A) garbage hdr fieldv p = (hdr, cs, none) := by
  by_cases hcg : colorOf (hdr (a - 1)) = garbage
  · exact ⟨[], visit_eval_skip young (some A) garbage hdr fieldv p a h hy ht hcg⟩
  · by_cases hcn : colorOf (hdr (a - 1)) = NOT_MARKABLE
    · exact ⟨[], visit_eval_extNM young A garbage hdr fieldv p a h hy ht hcn hG hix⟩
    · exact ⟨[(Val.ptr a, p)],
        visit_eval_major young (some A) garbage hdr fieldv p a h hy ht hcg hcn⟩

theorem withColor_withColor (h : HdrV) (c c' : Nat) :
    withColor (withColor h c) c' = withColor h c' := by
  cases h <;> rfl

theorem ftOkB_ptr_iff (al : Bool) (A : List Arena) (young : Int → Bool)
    (hdrInit : Int → HdrV) (allAddrs : List Int) (later : List LBlock) (a : Int) :
    ftOkB al A young hdrInit allAddrs later (.ptr a) = true ↔
      young a = true ∨
      (get_local_ix A a = none ∧ tagOf (hdrInit (a - 1)) ≠ Infix_tag ∧
        (a - 1) ∉ allAddrs) ∨
      (al = true ∧ ∃ b ∈ later, a = baddr A b + 1 ∧
        get_local_ix A a = some b.arena) := by
  simp [ftOkB, List.contains, List.elem_eq_mem, and_assoc, or_assoc]

theorem scanFieldsLoop_step_none (young : Int → Bool) (A : List Arena)
    (garbage : Nat) (fieldv : Int → Val) (sp hp : Int) (i n : Nat)
    (hdr hdr' : Int → HdrV) (cs0 : List (Val × Int))
    (h : visit young (some A) garbage hdr fieldv (hp + 1 + (i : Int)) =
      (hdr', cs0, none)) :
    scanFieldsLoop young A garbage fieldv sp hp i (n + 1) hdr =
      match scanFieldsLoop young A garbage fieldv sp hp (i + 1) n hdr' with
      | none => none
      | some (h2, cs) => some (h2, cs0 ++ cs) := by
  conv_lhs => unfold scanFieldsLoop
  rw [h]

theorem scanFieldsLoop_step_some (young : Int → Bool) (A : List Arena)
    (garbage : Nat) (fieldv : Int → Val) (sp hp : Int) (i n : Nat)
    (hdr hdr' : Int → HdrV) (cs0 : List (Val × Int)) (ixm : Nat)
    (h : visit young (some A) garbage hdr fieldv (hp + 1 + (i : Int)) =
      (hdr', cs0, some ixm))
    (hok : sp ≤ ptrAddr (fieldv (hp + 1 + (i : Int))) -
      ((A.getD ixm default).base + (A.getD ixm default).length)) :
    scanFieldsLoop young A garbage fieldv sp hp i (n + 1) hdr =
      match scanFieldsLoop young A garbage fieldv sp hp (i + 1) n hdr' with
      | none => none
      | some (h2, cs) => some (h2, cs0 ++ cs) := by
  conv_lhs => unfold scanFieldsLoop
  rw [h]
  dsimp only
  rw [if_pos hok]

theorem scanFieldsLoop_spec (young : Int → Bool) (A : List Arena) (garbage : Nat)
    (fieldv : Int → Val) (hdrInit : Int → HdrV) (allAddrs : List Int)
    (hG : garbage ≠ NOT_MARKABLE)
    (later : List LBlock) (sp hp : Int)
    (hpos : ∀ b ∈ later, sp ≤ b.pos)
    (hlsub : ∀ x ∈ later.map (baddr A), x ∈ allAddrs)
    (hnd : (later.map (baddr A)).Nodup) :
    ∀ (cnt i : Nat) (hdr : Int → HdrV),
      (∀ j, j < cnt →
        ftOkB true A young hdrInit allAddrs later
          (fieldv (hp + 1 + ((i + j : Nat) : Int))) = true) →
      (∀ b ∈ later, hdrOkAt garbage hdr A b) →
      (∀ x, x ∉ allAddrs → hdr x = hdrInit x) →
      ∃ h2 cs, scanFieldsLoop young A garbage fieldv sp hp i cnt hdr = some (h2, cs) ∧
        (∀ b ∈ later, h2 (baddr A b) = hdr (baddr A b) ∨
          h2 (baddr A b) = withColor (hdr (baddr A b)) garbage) ∧
        (∀ x, x ∉ later.map (baddr A) → h2 x = hdr x) ∧
        ((∀ j, j < cnt →
            ftOkB false A young hdrInit allAddrs later
              (fieldv (hp + 1 + ((i + j : Nat) : Int))) = true) →
          h2 = hdr) := by
  intro cnt
  induction cnt with
  | zero =>
    intro i hdr hft hhdr hE
    exact ⟨hdr, [], rfl, fun b _ => Or.inl rfl, fun x _ => rfl, fun _ => rfl⟩
  | succ n ih =>
    intro i hdr hft hhdr hE
    have hft0 : ftOkB true A young hdrInit allAddrs later
        (fieldv (hp + 1 + (i : Int))) = true := by
      have := hft 0 (by omega)
      simpa using this
    have hshift : ∀ (g : Int → HdrV),
        (∀ b ∈ later, hdrOkAt garbage g A b) →
        (∀ x, x ∉ allAddrs → g x = hdrInit x) →
        ∃ h2 cs, scanFieldsLoop young A garbage fieldv sp hp (i + 1) n g = some (h2, cs) ∧
          (∀ b ∈ later, h2 (baddr A b) = g (baddr A b) ∨
            h2 (baddr A b) = withColor (g (baddr A b)) garbage) ∧
          (∀ x, x ∉ later.map (baddr A) → h2 x = g x) ∧
          ((∀ j, j < n →
              ftOkB false A young hdrInit allAddrs later
                (fieldv (hp + 1 + (((i + 1) + j : Nat) : Int))) = true) →
            h2 = g) := by
      intro g hg hgE
      refine ih (i + 1) g ?_ hg hgE
      intro j hj
      have h1 : i + 1 + j = i + (j + 1) := by omega
      rw [h1]
      exact hft (j + 1) (by omega)
    have hpureshift : (∀ j, j < n + 1 →
        ftOkB false A young hdrInit allAddrs later
          (fieldv (hp + 1 + ((i + j : Nat) : Int))) = true) →
        (∀ j, j < n →
          ftOkB false A young hdrInit allAddrs later
            (fieldv (hp + 1 + (((i + 1) + j : Nat) : Int))) = true) := by
      intro hp0 j hj
      have h1 : i + 1 + j = i + (j + 1) := by omega
      rw [h1]
      exact hp0 (j + 1) (by omega)
    cases hv : fieldv (hp + 1 + (i : Int)) with
    | imm m =>
      obtain ⟨h2, cs, hrun, hcol, hfr, hpure⟩ := hshift hdr hhdr hE
      refine ⟨h2, [] ++ cs, ?_, hcol, hfr, fun hpf => hpure (hpureshift hpf)⟩
      rw [scanFieldsLoop_step_none young A garbage fieldv sp hp i n hdr hdr []
        (visit_eval_imm _ _ _ _ _ _ m hv), hrun]
    | ptr a =>
      by_cases hy : young a = true
      · obtain ⟨h2, cs, hrun, hcol, hfr, hpure⟩ := hshift hdr hhdr hE
        refine ⟨h2, [(Val.ptr a, hp + 1 + (i : Int))] ++ cs, ?_, hcol, hfr,
          fun hpf => hpure (hpureshift hpf)⟩
        rw [scanFieldsLoop_step_none young A garbage fieldv sp hp i n hdr hdr _
          (visit_eval_young _ _ _ _ _ _ a hv hy), hrun]
      · have hy' : young a = false := by
          cases hya : young a
          · rfl
          · exact absurd hya hy
        rw [hv, ftOkB_ptr_iff] at hft0
        rcases hft0 with hyt | ⟨hixnone, htag, hnotall⟩ |
          ⟨_, b', hb'mem, haddr, hixsome⟩
        · rw [hy'] at hyt; cases hyt
        · -- external reference: headers unchanged
          have htag' : tagOf (hdr (a - 1)) ≠ Infix_tag := by
            rw [hE (a - 1) hnotall]
            exact fun he => htag he
          obtain ⟨cs0, hvis⟩ :=
            visit_eval_ext young A garbage hdr fieldv _ a hv hy' htag' hG hixnone
          obtain ⟨h2, cs, hrun, hcol, hfr, hpure⟩ := hshift hdr hhdr hE
          refine ⟨h2, cs0 ++ cs, ?_, hcol, hfr, fun hpf => hpure (hpureshift hpf)⟩
          rw [scanFieldsLoop_step_none young A garbage fieldv sp hp i n hdr hdr cs0
            hvis, hrun]
        · -- pointer to a later layout block
          obtain ⟨hc'or, hshape, htaginfix, _⟩ := hhdr b' hb'mem
          have ha1 : a - 1 = baddr A b' := by omega
          have htag' : tagOf (hdr (a - 1)) ≠ Infix_tag := by
            rw [ha1, hshape]
            simpa [tagOf] using htaginfix
          have hb'addr_mem : baddr A b' ∈ later.map (baddr A) :=
            List.mem_map_of_mem (baddr A) hb'mem
          have hpurefalse : (∀ j, j < n + 1 →
              ftOkB false A young hdrInit allAddrs later
                (fieldv (hp + 1 + ((i + j : Nat) : Int))) = true) → False := by
            intro hpf
            have := hpf 0 (by omega)
            simp only [Nat.add_zero] at this
            rw [hv, ftOkB_ptr_iff] at this
            rcases this with h1 | ⟨h1, _, _⟩ | ⟨h1, _⟩
            · rw [hy'] at h1; cases h1
            · rw [hixsome] at h1; cases h1
            · cases h1
          rcases hc'or with hcNM | hcG
          · -- unmarked: visit marks it; the forwards check passes
            have hvis := visit_eval_mark young A garbage hdr fieldv _ a b'.arena hv
              hy' htag' (by rw [ha1]; exact hcNM) hG hixsome
            have hbad : baddr A b' =
                (A.getD b'.arena default).base + (A.getD b'.arena default).length +
                  b'.pos := rfl
            have hok : sp ≤ ptrAddr (fieldv (hp + 1 + (i : Int))) -
                ((A.getD b'.arena default).base + (A.getD b'.arena default).length) := by
              rw [hv]
              have := hpos b' hb'mem
              simp only [ptrAddr]
              omega
            have hstep := scanFieldsLoop_step_some young A garbage fieldv sp hp i n
              hdr _ [] b'.arena hvis hok
            set hdrM := Function.update hdr (a - 1)
              (withColor (hdr (a - 1)) garbage) with hdrMdef
            have hMat : hdrM (baddr A b') = withColor (hdr (baddr A b')) garbage := by
              rw [hdrMdef, ha1, Function.update_same]
            have hMother : ∀ x, x ≠ baddr A b' → hdrM x = hdr x := by
              intro x hx
              rw [hdrMdef]
              exact Function.update_noteq (ha1 ▸ hx) _ _
            have hhdrM : ∀ b'' ∈ later, hdrOkAt garbage hdrM A b'' := by
              intro b'' hb''
              by_cases heq : baddr A b'' = baddr A b'
              · have hbb : b'' = b' :=
                  List.inj_on_of_nodup_map hnd hb'' hb'mem heq
                subst hbb
                obtain ⟨_, hsh, hti, htc⟩ := hhdr b'' hb''
                refine ⟨?_, ?_, hti, htc⟩
                · rw [hMat, hsh]
                  simp [withColor, colorOf]
                · rw [hMat, hsh]
                  simp [withColor, colorOf]
              · obtain ⟨hco, hsh, hti, htc⟩ := hhdr b'' hb''
                unfold hdrOkAt
                rw [hMother _ heq]
                exact ⟨hco, hsh, hti, htc⟩
            have hEM : ∀ x, x ∉ allAddrs → hdrM x = hdrInit x := by
              intro x hx
              have hxne : x ≠ baddr A b' := fun he =>
                hx (he ▸ hlsub _ hb'addr_mem)
              rw [hMother _ hxne]
              exact hE x hx
            obtain ⟨h2, cs, hrun, hcol, hfr, _⟩ := hshift hdrM hhdrM hEM
            refine ⟨h2, [] ++ cs, ?_, ?_, ?_, fun hpf => absurd hpf
              (fun hpf' => hpurefalse hpf')⟩
            · rw [hstep, hrun]
            · intro b'' hb''
              by_cases heq : baddr A b'' = baddr A b'
              · have hbb : b'' = b' :=
                  List.inj_on_of_nodup_map hnd hb'' hb'mem heq
                subst hbb
                rcases hcol b'' hb'' with hc1 | hc1
                · right
                  rw [hc1, hMat]
                · right
                  rw [hc1, hMat, withColor_withColor]
              · rcases hcol b'' hb'' with hc1 | hc1
                · left
                  rw [hc1, hMother _ heq]
                · right
                  rw [hc1, hMother _ heq]
            · intro x hx
              have hxne : x ≠ baddr A b' := fun he => hx (he ▸ hb'addr_mem)
              rw [hfr x hx, hMother _ hxne]
          · -- already marked: visit skips it
            have hvis := visit_eval_skip young (some A) garbage hdr fieldv _ a hv
              hy' htag' (ha1 ▸ hcG)
            obtain ⟨h2, cs, hrun, hcol, hfr, hpure⟩ := hshift hdr hhdr hE
            refine ⟨h2, [] ++ cs, ?_, hcol, hfr,
              fun hpf => absurd hpf (fun hpf' => hpurefalse hpf')⟩
            rw [scanFieldsLoop_step_none young A garbage fieldv sp hp i n hdr hdr []
              hvis, hrun]

/-! #### Step lemmas for the main arena-walk loop -/

theorem scanLoop_step_stop (young : Int → Bool) (closStart : Val → Nat)
    (A : List Arena) (garbage : Nat) (fieldv : Int → Val) (fuel ix : Nat)
    (sp : Int) (hdr : Int → HdrV) (hsp : ¬sp < 0) :
    scanLoop young closStart A garbage fieldv (fuel + 1) ix sp hdr =
      .ok ⟨hdr, [], []⟩ := by
  conv_lhs => unfold scanLoop
  rw [if_neg hsp]

theorem scanLoop_step_cross (young : Int → Bool) (closStart : Val → Nat)
    (A : List Arena) (garbage : Nat) (fieldv : Int → Val) (fuel ix : Nat)
    (sp : Int) (hdr : Int → HdrV) (hsp : sp < 0)
    (hu : hdr ((A.getD ix default).base + (A.getD ix default).length + sp) =
      HdrV.uninit)
    (hix : ¬ix = 0) :
    scanLoop young closStart A garbage fieldv (fuel + 1) ix sp hdr =
      scanLoop young closStart A garbage fieldv fuel (ix - 1) sp hdr := by
  conv_lhs => unfold scanLoop
  rw [if_pos hsp]
  dsimp only
  rw [hu]
  dsimp only
  rw [if_neg hix]

theorem scanLoop_step_skip (young : Int → Bool) (closStart : Val → Nat)
    (A : List Arena) (garbage : Nat) (fieldv : Int → Val) (fuel ix : Nat)
    (sp hp : Int) (hdr : Int → HdrV) (tag color wosize scansize : Nat)
    (hsp : sp < 0)
    (hhp : hp = (A.getD ix default).base + (A.getD ix default).length + sp)
    (hm : hdr hp = HdrV.mk tag color wosize scansize)
    (hc : color = NOT_MARKABLE) :
    scanLoop young closStart A garbage fieldv (fuel + 1) ix sp hdr =
      match scanLoop young closStart A garbage fieldv fuel ix
          (sp + 1 + (wosize : Int)) hdr with
      | .ok r => .ok ⟨r.hdr, (hp, false) :: r.events, r.calls⟩
      | o => o := by
  subst hhp
  conv_lhs => unfold scanLoop
  rw [if_pos hsp]
  dsimp only
  rw [hm]
  dsimp only
  rw [if_pos hc]

theorem scanLoop_step_mark_noscan (young : Int → Bool) (closStart : Val → Nat)
    (A : List Arena) (garbage : Nat) (fieldv : Int → Val) (fuel ix : Nat)
    (sp hp : Int) (hdr : Int → HdrV) (tag color wosize scansize : Nat)
    (hsp : sp < 0)
    (hhp : hp = (A.getD ix default).base + (A.getD ix default).length + sp)
    (hm : hdr hp = HdrV.mk tag color wosize scansize)
    (hc : ¬color = NOT_MARKABLE) (hns : No_scan_tag ≤ tag) :
    scanLoop young closStart A garbage fieldv (fuel + 1) ix sp hdr =
      match scanLoop young closStart A garbage fieldv fuel ix
          (sp + 1 + (wosize : Int))
          (Function.update hdr hp (HdrV.mk tag NOT_MARKABLE wosize scansize)) with
      | .ok r => .ok ⟨r.hdr, (hp, true) :: r.events, r.calls⟩
      | o => o := by
  subst hhp
  conv_lhs => unfold scanLoop
  rw [if_pos hsp]
  dsimp only
  rw [hm]
  dsimp only
  rw [if_neg hc, if_pos hns]

theorem scanLoop_step_mark_scan (young : Int → Bool) (closStart : Val → Nat)
    (A : List Arena) (garbage : Nat) (fieldv : Int → Val) (fuel ix : Nat)
    (sp hp : Int) (hdr : Int → HdrV) (tag color wosize scansize : Nat)
    (hsp : sp < 0)
    (hhp : hp = (A.getD ix default).base + (A.getD ix default).length + sp)
    (hm : hdr hp = HdrV.mk tag color wosize scansize)
    (hc : ¬color = NOT_MARKABLE) (hns : ¬No_scan_tag ≤ tag) :
    scanLoop young closStart A garbage fieldv (fuel + 1) ix sp hdr =
      match scanFieldsLoop young A garbage fieldv sp hp
          (if tag = Closure_tag then closStart (fieldv (hp + 2)) else 0)
          (scansize - (if tag = Closure_tag then closStart (fieldv (hp + 2)) else 0))
          (Function.update hdr hp (HdrV.mk tag NOT_MARKABLE wosize scansize)) with
      | none => .fatal
      | some (h2, cs) =>
        match scanLoop young closStart A garbage fieldv fuel ix
            (sp + 1 + (wosize : Int)) h2 with
        | .ok r => .ok ⟨r.hdr, (hp, true) :: r.events, cs ++ r.calls⟩
        | o => o := by
  subst hhp
  conv_lhs => unfold scanLoop
  rw [if_pos hsp]
  dsimp only
  rw [hm]
  dsimp only
  rw [if_neg hc, if_neg hns]

theorem tilingOk_pos_le : ∀ (steps : List LStep) (ix : Nat) (sp : Int),
    tilingOk ix sp steps = true → ∀ b ∈ blocksOf steps, sp ≤ b.pos := by
  intro steps
  induction steps with
  | nil =>
    intro ix sp _ b hb
    simp [blocksOf] at hb
  | cons s r ih =>
    cases s with
    | blk b0 =>
      intro ix sp htil b hb
      simp only [tilingOk, Bool.and_eq_true, decide_eq_true_eq] at htil
      obtain ⟨⟨⟨h1, h2⟩, h3⟩, h4⟩ := htil
      simp only [blocksOf, List.mem_cons] at hb
      rcases hb with rfl | hb
      · omega
      · have := ih ix _ h4 b hb
        omega
    | cross =>
      intro ix sp htil b hb
      simp only [tilingOk, Bool.and_eq_true, decide_eq_true_eq] at htil
      exact ih (ix - 1) sp htil.2 b hb

/-- The main induction for the arena walk: a well-formed layout is walked
to completion; every layout block is processed exactly once, in order;
every block marked at entry is descended into; every block header ends up
`NOT_MARKABLE`; no other address changes; and when no scanned field holds
a local pointer, the processed-blocks record is exactly the entry marks. -/
theorem scanLoop_spec (young : Int → Bool) (closStart : Val → Nat)
    (A : List Arena) (garbage : Nat) (fieldv : Int → Val) (hdrInit : Int → HdrV)
    (allAddrs : List Int) (hG : garbage ≠ NOT_MARKABLE) :
    ∀ (steps : List LStep) (fuel ix : Nat) (sp : Int) (hdr : Int → HdrV),
      steps.length < fuel →
      tilingOk ix sp steps = true →
      (∀ b ∈ blocksOf steps, hdrOkAt garbage hdr A b) →
      (∀ s ∈ sentAddrs A ix sp steps, hdr s = HdrV.uninit) →
      ((blocksOf steps).map (baddr A) ++ sentAddrs A ix sp steps).Nodup →
      (∀ x ∈ (blocksOf steps).map (baddr A), x ∈ allAddrs) →
      (∀ x, x ∉ allAddrs → hdr x = hdrInit x) →
      fieldsOkB true A young hdrInit allAddrs closStart fieldv steps = true →
      ∃ hdr2 ev cs,
        scanLoop young closStart A garbage fieldv fuel ix sp hdr = .ok ⟨hdr2, ev, cs⟩ ∧
        ev.map Prod.fst = (blocksOf steps).map (baddr A) ∧
        (∀ b ∈ blocksOf steps, colorOf (hdr (baddr A b)) = garbage →
          (baddr A b, true) ∈ ev) ∧
        (∀ b ∈ blocksOf steps,
          hdr2 (baddr A b) = withColor (hdr (baddr A b)) NOT_MARKABLE) ∧
        (∀ x, x ∉ (blocksOf steps).map (baddr A) → hdr2 x = hdr x) ∧
        (fieldsOkB false A young hdrInit allAddrs closStart fieldv steps = true →
          ev = (blocksOf steps).map fun b =>
            (baddr A b, decide (colorOf (hdr (baddr A b)) = garbage))) := by
  intro steps
  induction steps with
  | nil =>
    intro fuel ix sp hdr hlen htil hhdr hsent hnd hsub hE hfo
    match fuel, hlen with
    | f + 1, _ =>
      simp only [tilingOk, decide_eq_true_eq] at htil
      refine ⟨hdr, [], [], scanLoop_step_stop _ _ _ _ _ _ _ _ _ (by omega),
        by simp [blocksOf], ?_, ?_, fun x _ => rfl, fun _ => by simp [blocksOf]⟩
      · intro b hb
        simp [blocksOf] at hb
      · intro b hb
        simp [blocksOf] at hb
  | cons s r ih =>
    cases s with
    | cross =>
      intro fuel ix sp hdr hlen htil hhdr hsent hnd hsub hE hfo
      match fuel, hlen with
      | f + 1, hlen =>
        simp only [tilingOk, Bool.and_eq_true, decide_eq_true_eq] at htil
        obtain ⟨⟨hsp, hix⟩, htil'⟩ := htil
        have hsent0 : hdr (arAddr A ix sp) = HdrV.uninit := by
          refine hsent _ ?_
          simp [sentAddrs]
        have hhdr' : ∀ b ∈ blocksOf r, hdrOkAt garbage hdr A b := hhdr
        have hsent' : ∀ s ∈ sentAddrs A (ix - 1) sp r, hdr s = HdrV.uninit := by
          intro t ht
          refine hsent t ?_
          simp only [sentAddrs]
          exact List.mem_cons_of_mem _ ht
        have hnd' : ((blocksOf r).map (baddr A) ++ sentAddrs A (ix - 1) sp r).Nodup := by
          refine List.Nodup.sublist ?_ hnd
          simp only [sentAddrs, blocksOf]
          exact (List.append_sublist_append_left _).mpr (List.sublist_cons_self _ _)
        obtain ⟨hdr2, ev, cs, hrun, hevmap, hP3, hclear, hfr, hP4⟩ :=
          ih f (ix - 1) sp hdr (by simpa using Nat.lt_of_succ_lt_succ hlen) htil'
            hhdr' hsent' hnd' hsub hE hfo
        refine ⟨hdr2, ev, cs, ?_, hevmap, hP3, hclear, hfr, hP4⟩
        rw [scanLoop_step_cross young closStart A garbage fieldv f ix sp hdr hsp
          (by simpa [arAddr] using hsent0) (by omega), hrun]
    | blk b =>
      intro fuel ix sp hdr hlen htil hhdr hsent hnd hsub hE hfo
      match fuel, hlen with
      | f + 1, hlen =>
        simp only [tilingOk, Bool.and_eq_true, decide_eq_true_eq] at htil
        obtain ⟨⟨⟨harena, hposb⟩, hsp⟩, htil'⟩ := htil
        have hbmem : b ∈ blocksOf (LStep.blk b :: r) := by
          simp [blocksOf]
        obtain ⟨hcolor, hshape, htagi, htagc⟩ := hhdr b hbmem
        have hhp : (A.getD ix default).base + (A.getD ix default).length + sp =
            baddr A b := by
          rw [baddr, arAddr, harena, hposb]
        -- unpack the nodup hypothesis
        have hnd1 : baddr A b ∉ (blocksOf r).map (baddr A) ++
            sentAddrs A ix (sp + 1 + (b.wosize : Int)) r := by
          have : ((baddr A b :: (blocksOf r).map (baddr A)) ++
              sentAddrs A ix (sp + 1 + (b.wosize : Int)) r).Nodup := by
            simpa [blocksOf, sentAddrs] using hnd
          rw [List.cons_append] at this
          exact (List.nodup_cons.1 this).1
        have hnd2 : ((blocksOf r).map (baddr A) ++
            sentAddrs A ix (sp + 1 + (b.wosize : Int)) r).Nodup := by
          have : ((baddr A b :: (blocksOf r).map (baddr A)) ++
              sentAddrs A ix (sp + 1 + (b.wosize : Int)) r).Nodup := by
            simpa [blocksOf, sentAddrs] using hnd
          rw [List.cons_append] at this
          exact (List.nodup_cons.1 this).2
        have hbnotr : baddr A b ∉ (blocksOf r).map (baddr A) := fun hx =>
          hnd1 (List.mem_append.2 (Or.inl hx))
        have hbnots : baddr A b ∉ sentAddrs A ix (sp + 1 + (b.wosize : Int)) r :=
          fun hx => hnd1 (List.mem_append.2 (Or.inr hx))
        have hsubr : ∀ x ∈ (blocksOf r).map (baddr A), x ∈ allAddrs := by
          intro x hx
          refine hsub x ?_
          simp only [blocksOf, List.map_cons]
          exact List.mem_cons_of_mem _ hx
        have hballA : baddr A b ∈ allAddrs := by
          refine hsub _ ?_
          simp [blocksOf]
        have hfo2 := hfo
        simp only [fieldsOkB, Bool.and_eq_true] at hfo2
        obtain ⟨hfob, hfor⟩ := hfo2
        have hhdrr : ∀ b' ∈ blocksOf r, hdrOkAt garbage hdr A b' := by
          intro b' hb'
          refine hhdr b' ?_
          simp only [blocksOf, List.mem_cons]
          exact Or.inr hb'
        have hsentr : ∀ t ∈ sentAddrs A ix (sp + 1 + (b.wosize : Int)) r,
            hdr t = HdrV.uninit := by
          intro t ht
          refine hsent t ?_
          simpa [sentAddrs] using ht
        by_cases hc : colorOf (hdr (baddr A b)) = NOT_MARKABLE
        · -- unmarked block: skipped without descending
          obtain ⟨hdr2, ev, cs, hrun, hevmap, hP3, hclear, hfr, hP4⟩ :=
            ih f ix (sp + 1 + (b.wosize : Int)) hdr
              (by simpa using Nat.lt_of_succ_lt_succ hlen) htil' hhdrr hsentr hnd2
              hsubr hE hfor
          refine ⟨hdr2, (baddr A b, false) :: ev, cs, ?_, ?_, ?_, ?_, ?_, ?_⟩
          · rw [scanLoop_step_skip young closStart A garbage fieldv f ix sp
              (baddr A b) hdr b.tag (colorOf (hdr (baddr A b))) b.wosize b.scansize
              hsp hhp.symm hshape hc, hrun]
          · simp [blocksOf, hevmap]
          · intro b' hb' hcg
            simp only [blocksOf, List.mem_cons] at hb'
            rcases hb' with rfl | hb'
            · exact absurd hcg (by rw [hc]; exact fun he => hG he.symm)
            · exact List.mem_cons_of_mem _ (hP3 b' hb' hcg)
          · intro b' hb'
            simp only [blocksOf, List.mem_cons] at hb'
            rcases hb' with rfl | hb'
            · rw [hfr _ hbnotr, hshape, hc]
              simp [withColor]
            · exact hclear b' hb'
          · intro x hx
            simp only [blocksOf, List.map_cons, List.mem_cons] at hx
            push_neg at hx
            rw [hfr x hx.2]
          · intro hfp
            simp only [fieldsOkB, Bool.and_eq_true] at hfp
            have := hP4 hfp.2
            simp only [blocksOf, List.map_cons]
            rw [this]
            have hdec : decide (colorOf (hdr (baddr A b)) = garbage) = false := by
              rw [hc]
              simp only [decide_eq_false_iff_not]
              exact fun he => hG he.symm
            rw [hdec]
        · -- marked block: mark cleared, fields scanned unless No_scan
          have hcg : colorOf (hdr (baddr A b)) = garbage := by
            rcases hcolor with h1 | h1
            · exact absurd h1 hc
            · exact h1
          set hdr1 := Function.update hdr (baddr A b)
            (HdrV.mk b.tag NOT_MARKABLE b.wosize b.scansize) with hdr1def
          have hdr1at : hdr1 (baddr A b) =
              HdrV.mk b.tag NOT_MARKABLE b.wosize b.scansize := by
            rw [hdr1def, Function.update_same]
          have hdr1other : ∀ x, x ≠ baddr A b → hdr1 x = hdr x := by
            intro x hx
            rw [hdr1def]
            exact Function.update_noteq hx _ _
          have hhdrr1 : ∀ b' ∈ blocksOf r, hdrOkAt garbage hdr1 A b' := by
            intro b' hb'
            have hne : baddr A b' ≠ baddr A b := by
              intro he
              exact hbnotr (he ▸ List.mem_map_of_mem (baddr A) hb')
            obtain ⟨h1, h2, h3, h4⟩ := hhdrr b' hb'
            unfold hdrOkAt
            rw [hdr1other _ hne]
            exact ⟨h1, h2, h3, h4⟩
          have hsentr1 : ∀ t ∈ sentAddrs A ix (sp + 1 + (b.wosize : Int)) r,
              hdr1 t = HdrV.uninit := by
            intro t ht
            have hne : t ≠ baddr A b := fun he => hbnots (he ▸ ht)
            rw [hdr1other _ hne]
            exact hsentr t ht
          have hE1 : ∀ x, x ∉ allAddrs → hdr1 x = hdrInit x := by
            intro x hx
            have hne : x ≠ baddr A b := fun he => hx (he ▸ hballA)
            rw [hdr1other _ hne]
            exact hE x hx
          have hwc : withColor (hdr (baddr A b)) NOT_MARKABLE =
              HdrV.mk b.tag NOT_MARKABLE b.wosize b.scansize := by
            rw [hshape]
            simp [withColor]
          by_cases hns : No_scan_tag ≤ b.tag
          · -- a no-scan block: cleared, fields not visited
            obtain ⟨hdr2, ev, cs, hrun, hevmap, hP3, hclear, hfr, hP4⟩ :=
              ih f ix (sp + 1 + (b.wosize : Int)) hdr1
                (by simpa using Nat.lt_of_succ_lt_succ hlen) htil' hhdrr1 hsentr1
                hnd2 hsubr hE1 hfor
            refine ⟨hdr2, (baddr A b, true) :: ev, cs, ?_, ?_, ?_, ?_, ?_, ?_⟩
            · rw [scanLoop_step_mark_noscan young closStart A garbage fieldv f ix sp
                (baddr A b) hdr b.tag (colorOf (hdr (baddr A b))) b.wosize b.scansize
                hsp hhp.symm hshape hc hns, hrun]
            · simp [blocksOf, hevmap]
            · intro b' hb' hcg'
              simp only [blocksOf, List.mem_cons] at hb'
              rcases hb' with rfl | hb'
              · exact List.mem_cons_self _ _
              · have hne : baddr A b' ≠ baddr A b := by
                  intro he
                  exact hbnotr (he ▸ List.mem_map_of_mem (baddr A) hb')
                refine List.mem_cons_of_mem _ (hP3 b' hb' ?_)
                rw [hdr1other _ hne]
                exact hcg'
            · intro b' hb'
              simp only [blocksOf, List.mem_cons] at hb'
              rcases hb' with rfl | hb'
              · rw [hfr _ hbnotr, hdr1at, hwc]
              · have hne : baddr A b' ≠ baddr A b := by
                  intro he
                  exact hbnotr (he ▸ List.mem_map_of_mem (baddr A) hb')
                rw [hclear b' hb', hdr1other _ hne]
            · intro x hx
              simp only [blocksOf, List.map_cons, List.mem_cons] at hx
              push_neg at hx
              rw [hfr x hx.2, hdr1other _ hx.1]
            · intro hfp
              simp only [fieldsOkB, Bool.and_eq_true] at hfp
              have hev := hP4 hfp.2
              simp only [blocksOf, List.map_cons]
              have hdec : decide (colorOf (hdr (baddr A b)) = garbage) = true := by
                rw [hcg]
                simp
              rw [hdec, hev]
              congr 1
              refine List.map_congr_left ?_
              intro b' hb'
              have hne : baddr A b' ≠ baddr A b := by
                intro he
                exact hbnotr (he ▸ List.mem_map_of_mem (baddr A) hb')
              rw [hdr1other _ hne]
          · -- a scannable marked block: cleared and descended into
            have hposr : ∀ b' ∈ blocksOf r, sp ≤ b'.pos := by
              intro b' hb'
              have := tilingOk_pos_le r ix _ htil' b' hb'
              omega
            have hndr : ((blocksOf r).map (baddr A)).Nodup :=
              (List.nodup_append.1 hnd2).1
            have hft : ∀ j, j < b.scansize - startIxOf closStart fieldv A b →
                ftOkB true A young hdrInit allAddrs (blocksOf r)
                  (fieldv (baddr A b + 1 +
                    ((startIxOf closStart fieldv A b + j : Nat) : Int))) = true := by
              intro j hj
              simp only [blockFieldsOkB, Bool.or_eq_true, decide_eq_true_eq,
                List.all_eq_true, List.mem_range] at hfob
              rcases hfob with h1 | h1
              · omega
              · have := h1 (startIxOf closStart fieldv A b + j) (by omega)
                rw [if_pos (by omega)] at this
                exact this
            obtain ⟨h2, cs, hfrun, hfcol, hffr, hfpure⟩ :=
              scanFieldsLoop_spec young A garbage fieldv hdrInit allAddrs hG
                (blocksOf r) sp (baddr A b) hposr hsubr hndr
                (b.scansize - startIxOf closStart fieldv A b)
                (startIxOf closStart fieldv A b) hdr1 (by simpa using hft)
                hhdrr1 hE1
            have hh2later : ∀ b' ∈ blocksOf r,
                h2 (baddr A b') = hdr (baddr A b') ∨
                h2 (baddr A b') = withColor (hdr (baddr A b')) garbage := by
              intro b' hb'
              have hne : baddr A b' ≠ baddr A b := by
                intro he
                exact hbnotr (he ▸ List.mem_map_of_mem (baddr A) hb')
              rcases hfcol b' hb' with h1 | h1
              · left
                rw [h1, hdr1other _ hne]
              · right
                rw [h1, hdr1other _ hne]
            have hhdrr2 : ∀ b' ∈ blocksOf r, hdrOkAt garbage h2 A b' := by
              intro b' hb'
              obtain ⟨h1, hsh, h3, h4⟩ := hhdrr b' hb'
              rcases hh2later b' hb' with he | he
              · unfold hdrOkAt
                rw [he]
                exact ⟨h1, hsh, h3, h4⟩
              · unfold hdrOkAt
                rw [he, hsh]
                refine ⟨Or.inr ?_, ?_, h3, h4⟩ <;> simp [withColor, colorOf]
            have hsentr2 : ∀ t ∈ sentAddrs A ix (sp + 1 + (b.wosize : Int)) r,
                h2 t = HdrV.uninit := by
              intro t ht
              have htnotr : t ∉ (blocksOf r).map (baddr A) := by
                intro hx
                have := (List.nodup_append.1 hnd2).2.2
                exact this hx ht
              rw [hffr t htnotr]
              exact hsentr1 t ht
            have hE2 : ∀ x, x ∉ allAddrs → h2 x = hdrInit x := by
              intro x hx
              have hxnotr : x ∉ (blocksOf r).map (baddr A) := fun hm =>
                hx (hsubr x hm)
              rw [hffr x hxnotr]
              exact hE1 x hx
            obtain ⟨hdr2, ev, cs2, hrun, hevmap, hP3, hclear, hfr, hP4⟩ :=
              ih f ix (sp + 1 + (b.wosize : Int)) h2
                (by simpa using Nat.lt_of_succ_lt_succ hlen) htil' hhdrr2 hsentr2
                hnd2 hsubr hE2 hfor
            refine ⟨hdr2, (baddr A b, true) :: ev, cs ++ cs2, ?_, ?_, ?_, ?_, ?_, ?_⟩
            · rw [scanLoop_step_mark_scan young closStart A garbage fieldv f ix sp
                (baddr A b) hdr b.tag (colorOf (hdr (baddr A b))) b.wosize b.scansize
                hsp hhp.symm hshape hc hns]
              have hfrun' : scanFieldsLoop young A garbage fieldv sp (baddr A b)
                  (if b.tag = Closure_tag then closStart (fieldv (baddr A b + 2))
                    else 0)
                  (b.scansize - (if b.tag = Closure_tag then
                    closStart (fieldv (baddr A b + 2)) else 0))
                  (Function.update hdr (baddr A b)
                    (HdrV.mk b.tag NOT_MARKABLE b.wosize b.scansize)) =
                  some (h2, cs) := by
                rw [← hdr1def]
                exact hfrun
              rw [hfrun']
              dsimp only
              rw [hrun]
            · simp [blocksOf, hevmap]
            · intro b' hb' hcg'
              simp only [blocksOf, List.mem_cons] at hb'
              rcases hb' with rfl | hb'
              · exact List.mem_cons_self _ _
              · refine List.mem_cons_of_mem _ (hP3 b' hb' ?_)
                obtain ⟨_, hsh, _, _⟩ := hhdrr b' hb'
                rcases hh2later b' hb' with he | he
                · rw [he]
                  exact hcg'
                · rw [he, hsh]
                  simp [withColor, colorOf]
            · intro b' hb'
              simp only [blocksOf, List.mem_cons] at hb'
              rcases hb' with rfl | hb'
              · rw [hfr _ hbnotr, hffr _ hbnotr, hdr1at, hwc]
              · rw [hclear b' hb']
                rcases hh2later b' hb' with he | he
                · rw [he]
                · rw [he]
                  obtain ⟨_, hsh, _, _⟩ := hhdrr b' hb'
                  rw [hsh]
                  simp [withColor]
            · intro x hx
              simp only [blocksOf, List.map_cons, List.mem_cons] at hx
              push_neg at hx
              rw [hfr x hx.2, hffr x hx.2, hdr1other _ hx.1]
            · intro hfp
              simp only [fieldsOkB, Bool.and_eq_true] at hfp
              obtain ⟨hfpb, hfpr⟩ := hfp
              have hftf : ∀ j, j < b.scansize - startIxOf closStart fieldv A b →
                  ftOkB false A young hdrInit allAddrs (blocksOf r)
                    (fieldv (baddr A b + 1 +
                      ((startIxOf closStart fieldv A b + j : Nat) : Int))) = true := by
                intro j hj
                simp only [blockFieldsOkB, Bool.or_eq_true, decide_eq_true_eq,
                  List.all_eq_true, List.mem_range] at hfpb
                rcases hfpb with h1 | h1
                · omega
                · have := h1 (startIxOf closStart fieldv A b + j) (by omega)
                  rw [if_pos (by omega)] at this
                  exact this
              have hh2eq : h2 = hdr1 := hfpure (by simpa using hftf)
              have hev := hP4 hfpr
              simp only [blocksOf, List.map_cons]
              have hdec : decide (colorOf (hdr (baddr A b)) = garbage) = true := by
                rw [hcg]
                simp
              rw [hdec, hev]
              congr 1
              refine List.map_congr_left ?_
              intro b' hb'
              have hne : baddr A b' ≠ baddr A b := by
                intro he
                exact hbnotr (he ▸ List.mem_map_of_mem (baddr A) hb')
              rw [hh2eq, hdr1other _ hne]

/-- C6: during one pass over a well-formed arena layout,
`scan_local_allocations` completes normally and (i) processes every layout
block exactly once (the processed-block record lists each block header
address exactly once, in walk order); (ii) descends into every block that
was marked reachable at the start of the pass, no matter how many roots
marked it (marking is a single color state); (iii) restores every block
header to the `NOT_MARKABLE` color by the end of the pass and changes no
other address; and (iv) when no scanned field holds a local pointer, the
blocks descended into are exactly the initially marked ones — an unmarked
block is skipped without descending. -/
theorem scan_local_allocations_spec (young : Int → Bool) (closStart : Val → Nat)
    (A : List Arena) (garbage : Nat) (fieldv : Int → Val) (hdr : Int → HdrV)
    (steps : List LStep) (saved_sp : Int) (fuel : Nat)
    (hG : garbage ≠ NOT_MARKABLE)
    (hlen : steps.length < fuel)
    (htil : tilingOk (A.length - 1) saved_sp steps = true)
    (hhdr : ∀ b ∈ blocksOf steps, hdrOkAt garbage hdr A b)
    (hsent : ∀ s ∈ sentAddrs A (A.length - 1) saved_sp steps, hdr s = HdrV.uninit)
    (hnd : ((blocksOf steps).map (baddr A) ++
      sentAddrs A (A.length - 1) saved_sp steps).Nodup)
    (hfo : fieldsOkB true A young hdr ((blocksOf steps).map (baddr A)) closStart
      fieldv steps = true) :
    ∃ hdr2 ev cs,
      scan_local_allocations young closStart garbage fieldv (some A) saved_sp
          hdr fuel = .ok ⟨hdr2, ev, cs⟩ ∧
      ev.map Prod.fst = (blocksOf steps).map (baddr A) ∧
      (ev.map Prod.fst).Nodup ∧
      (∀ b ∈ blocksOf steps, colorOf (hdr (baddr A b)) = garbage →
        (baddr A b, true) ∈ ev) ∧
      (∀ b ∈ blocksOf steps,
        hdr2 (baddr A b) = withColor (hdr (baddr A b)) NOT_MARKABLE ∧
        colorOf (hdr2 (baddr A b)) = NOT_MARKABLE) ∧
      (∀ x, x ∉ (blocksOf steps).map (baddr A) → hdr2 x = hdr x) ∧
      (fieldsOkB false A young hdr ((blocksOf steps).map (baddr A)) closStart
          fieldv steps = true →
        ev = (blocksOf steps).map fun b =>
          (baddr A b, decide (colorOf (hdr (baddr A b)) = garbage))) := by
  obtain ⟨hdr2, ev, cs, hrun, hevmap, hP3, hclear, hfr, hP4⟩ :=
    scanLoop_spec young closStart A garbage fieldv hdr
      ((blocksOf steps).map (baddr A)) hG steps fuel (A.length - 1) saved_sp hdr
      hlen htil hhdr hsent hnd (fun x hx => hx) (fun x _ => rfl) hfo
  refine ⟨hdr2, ev, cs, hrun, hevmap, ?_, hP3, ?_, hfr, hP4⟩
  · rw [hevmap]
    exact (List.nodup_append.1 hnd).1
  · intro b hb
    refine ⟨hclear b hb, ?_⟩
    obtain ⟨_, hsh, _, _⟩ := hhdr b hb
    rw [hclear b hb, hsh]
    simp [withColor, colorOf]

/-- A one-arena demonstration layout for the arena-walk witness: two
one-field blocks, the first marked, the second unmarked. -/
def demoArenas : List Arena := [Arena.mk 100 10]

/-- Headers of the demonstration layout (mark color 0): the block at
offset -4 (address 106) is marked, the block at offset -2 (address 108)
is `NOT_MARKABLE`. -/
def demoHdr : Int → HdrV := fun x =>
  if x = 106 then HdrV.mk 0 0 1 1
  else if x = 108 then HdrV.mk 0 3 1 1
  else HdrV.uninit

/-- The demonstration layout steps. -/
def demoSteps : List LStep :=
  [LStep.blk (LBlock.mk 0 (-4) 0 1 1), LStep.blk (LBlock.mk 0 (-2) 0 1 1)]

/-- C6 witness: on the demonstration layout the walk completes and the
conclusions of `scan_local_allocations_spec` hold. -/
theorem scan_local_allocations_spec_witness :
    ∃ hdr2 ev cs,
      scan_local_allocations (fun _ => false) (fun _ => 0) 0 (fun _ => Val.imm 0)
          (some demoArenas) (-4) demoHdr 3 = .ok ⟨hdr2, ev, cs⟩ ∧
      ev.map Prod.fst = (blocksOf demoSteps).map (baddr demoArenas) ∧
      (ev.map Prod.fst).Nodup ∧
      (∀ b ∈ blocksOf demoSteps,
        colorOf (demoHdr (baddr demoArenas b)) = 0 →
        (baddr demoArenas b, true) ∈ ev) ∧
      (∀ b ∈ blocksOf demoSteps,
        hdr2 (baddr demoArenas b) =
          withColor (demoHdr (baddr demoArenas b)) NOT_MARKABLE ∧
        colorOf (hdr2 (baddr demoArenas b)) = NOT_MARKABLE) ∧
      (∀ x, x ∉ (blocksOf demoSteps).map (baddr demoArenas) → hdr2 x = demoHdr x) ∧
      (fieldsOkB false demoArenas (fun _ => false) demoHdr
          ((blocksOf demoSteps).map (baddr demoArenas)) (fun _ => 0)
          (fun _ => Val.imm 0) demoSteps = true →
        ev = (blocksOf demoSteps).map fun b =>
          (baddr demoArenas b,
            decide (colorOf (demoHdr (baddr demoArenas b)) = 0))) :=
  scan_local_allocations_spec (fun _ => false) (fun _ => 0) demoArenas 0
    (fun _ => Val.imm 0) demoHdr demoSteps (-4) 3 (by decide) (by decide)
    (by decide) (by decide) (by decide) (by decide) (by decide)

/-! ### Bytecode root scanning: `caml_scan_stack` (fiber.c:606-640, BYTE_CODE)

In interpreted mode every slot from `sp` to `Stack_high` is a candidate
root, filtered by `is_scannable`; the code-fragment table collaborator
`caml_find_code_fragment_by_pc` is the parameter `codeFrag` (true = the
value is a recognized embedded code address).  A segment's slots are its
`content` from `Stack_base` (index 0) to `Stack_high`, live from index
`sp`; the parent chain is linearized as a list of segments.  Visitor-call
locations are tagged with the segment's position in the chain. -/

/-- A bytecode-mode stack segment. -/
structure BcStack where
  content : List Val
  sp : Nat
  hval : Val
  hexn : Val
  heff : Val
deriving DecidableEq

/-- Address of a root passed to the visitor: a stack slot (by segment and
slot index) or one of the three handler fields of a segment. -/
inductive BcLoc where
  | slot (seg i : Nat)
  | hvalLoc (seg : Nat)
  | hexnLoc (seg : Nat)
  | heffLoc (seg : Nat)
deriving DecidableEq

/-- Embeds `is_scannable` (fiber.c:606-610):
`(flags & SCANNING_ONLY_YOUNG_VALUES) ||
 (Is_block(v) && caml_find_code_fragment_by_pc((char *) v) == NULL)`. -/
def is_scannable (onlyYoung : Bool) (codeFrag : Int → Bool) (v : Val) : Bool :=
  onlyYoung ||
    (match v with
     | .imm _ => false
     | .ptr a => !codeFrag a)

/-- The slot loop `for (sp = low; sp < high; sp++)` of bytecode
`caml_scan_stack`, collecting the visitor calls in order; `i` is the index
of the first remaining slot. -/
def scanBcSlots (onlyYoung : Bool) (codeFrag : Int → Bool) (seg : Nat) :
    Nat → List Val → List (Val × BcLoc)
  | _, [] => []
  | i, v :: rest =>
    (if is_scannable onlyYoung codeFrag v then [(v, BcLoc.slot seg i)] else []) ++
      scanBcSlots onlyYoung codeFrag seg (i + 1) rest

/-- One iteration of the segment loop of bytecode `caml_scan_stack`: the
live slots, then the three handler fields, each through the filter. -/
def scanBcSeg (onlyYoung : Bool) (codeFrag : Int → Bool) (seg : Nat)
    (st : BcStack) : List (Val × BcLoc) :=
  scanBcSlots onlyYoung codeFrag seg st.sp (st.content.drop st.sp) ++
    ((if is_scannable onlyYoung codeFrag st.hval
        then [(st.hval, BcLoc.hvalLoc seg)] else []) ++
     (if is_scannable onlyYoung codeFrag st.hexn
        then [(st.hexn, BcLoc.hexnLoc seg)] else []) ++
     (if is_scannable onlyYoung codeFrag st.heff
        then [(st.heff, BcLoc.heffLoc seg)] else []))

/-- Bytecode `caml_scan_stack` (fiber.c:612-640) over a parent chain
linearized as a list, numbering segments from `seg`. -/
def caml_scan_stack_bc (onlyYoung : Bool) (codeFrag : Int → Bool) :
    Nat → List BcStack → List (Val × BcLoc)
  | _, [] => []
  | seg, st :: rest =>
    scanBcSeg onlyYoung codeFrag seg st ++
      caml_scan_stack_bc onlyYoung codeFrag (seg + 1) rest

theorem scanBcSlots_mem (onlyYoung : Bool) (codeFrag : Int → Bool) (seg : Nat)
    (v : Val) (loc : BcLoc) :
    ∀ (l : List Val) (i0 : Nat),
      ((v, loc) ∈ scanBcSlots onlyYoung codeFrag seg i0 l ↔
        ∃ j, loc = BcLoc.slot seg j ∧ i0 ≤ j ∧ l.get? (j - i0) = some v ∧
          is_scannable onlyYoung codeFrag v = true) := by
  intro l
  induction l with
  | nil =>
    intro i0
    simp [scanBcSlots]
  | cons w rest ih =>
    intro i0
    unfold scanBcSlots
    rw [List.mem_append]
    constructor
    · intro h
      rcases h with h | h
      · by_cases hs : is_scannable onlyYoung codeFrag w = true
        · rw [if_pos hs] at h
          simp only [List.mem_singleton, Prod.mk.injEq] at h
          obtain ⟨hv, hloc⟩ := h
          subst hv
          exact ⟨i0, hloc, le_refl i0, by simp, hs⟩
        · rw [if_neg hs] at h
          cases h
      · obtain ⟨j, hloc, hij, hget, hs⟩ := (ih (i0 + 1)).1 h
        refine ⟨j, hloc, by omega, ?_, hs⟩
        have : j - i0 = (j - (i0 + 1)) + 1 := by omega
        rw [this]
        simpa using hget
    · intro ⟨j, hloc, hij, hget, hs⟩
      by_cases hji : j = i0
      · subst hji
        left
        simp only [Nat.sub_self, List.get?] at hget
        injection hget with hget
        subst hget
        rw [if_pos hs]
        simp [hloc]
      · right
        refine (ih (i0 + 1)).2 ⟨j, hloc, by omega, ?_, hs⟩
        have : j - i0 = (j - (i0 + 1)) + 1 := by omega
        rw [this] at hget
        simpa using hget

/-- C9: in bytecode mode, the segment scan passes to the visitor exactly
the stack slots from `sp` up to `Stack_high` whose value passes
`is_scannable`; the filter rejects every value recognized as an embedded
code address; and when the visitor is restricted to young-generation-only
roots the filter accepts unconditionally, so every slot is passed.  A
one-segment chain of `caml_scan_stack` is exactly one segment scan. -/
theorem scan_stack_bytecode_slots (onlyYoung : Bool) (codeFrag : Int → Bool)
    (seg : Nat) (st : BcStack) :
    (∀ i v, ((v, BcLoc.slot seg i) ∈ scanBcSeg onlyYoung codeFrag seg st) ↔
      (st.sp ≤ i ∧ st.content.get? i = some v ∧
        is_scannable onlyYoung codeFrag v = true)) ∧
    (onlyYoung = true → ∀ v, is_scannable onlyYoung codeFrag v = true) ∧
    (∀ a, codeFrag a = true → is_scannable false codeFrag (Val.ptr a) = false) ∧
    caml_scan_stack_bc onlyYoung codeFrag seg [st] =
      scanBcSeg onlyYoung codeFrag seg st := by
  refine ⟨?_, ?_, ?_, ?_⟩
  · intro i v
    unfold scanBcSeg
    rw [List.mem_append]
    constructor
    · intro h
      rcases h with h | h
      · obtain ⟨j, hloc, hij, hget, hs⟩ :=
          (scanBcSlots_mem onlyYoung codeFrag seg v (BcLoc.slot seg i)
            (st.content.drop st.sp) st.sp).1 h
        injection hloc with h1 h2
        subst h2
        rw [List.get?_drop] at hget
        have : st.sp + (i - st.sp) = i := by omega
        rw [this] at hget
        exact ⟨hij, hget, hs⟩
      · exfalso
        rcases List.mem_append.1 h with h | h
        · rcases List.mem_append.1 h with h | h
          · by_cases hs : is_scannable onlyYoung codeFrag st.hval = true
            · rw [if_pos hs] at h; simp at h
            · rw [if_neg hs] at h; cases h
          · by_cases hs : is_scannable onlyYoung codeFrag st.hexn = true
            · rw [if_pos hs] at h; simp at h
            · rw [if_neg hs] at h; cases h
        · by_cases hs : is_scannable onlyYoung codeFrag st.heff = true
          · rw [if_pos hs] at h; simp at h
          · rw [if_neg hs] at h; cases h
    · intro ⟨hile, hget, hs⟩
      left
      refine (scanBcSlots_mem onlyYoung codeFrag seg v (BcLoc.slot seg i)
        (st.content.drop st.sp) st.sp).2 ⟨i, rfl, hile, ?_, hs⟩
      rw [List.get?_drop]
      have : st.sp + (i - st.sp) = i := by omega
      rw [this]
      exact hget
  · intro h v
    rw [h]
    simp [is_scannable]
  · intro a h
    simp [is_scannable, h]
  · unfold caml_scan_stack_bc
    simp [caml_scan_stack_bc]

/-- C9 witness: a value recognized as a code address is rejected by the
filter on a concrete segment scan. -/
theorem scan_stack_bytecode_slots_witness :
    is_scannable false (fun a => decide (a = 5)) (Val.ptr 5) = false :=
  (scan_stack_bytecode_slots false (fun a => decide (a = 5)) 0
    (BcStack.mk [] 0 (Val.imm 0) (Val.imm 0) (Val.imm 0))).2.2.1 5 (by decide)

end Fiber
